import Mathlib

/-!
Shallow embedding of the calendar-grid parser of `app/service/google_data.py`
(class `GridScheduler`: `parse_calendar`, `_process_week_events_df`,
`_find_vertical_activities`, `_has_dates_df`, `filter_events`) together with
the month table `MONTHS` of `config.py`, and proofs about the embedded code.

Grid cells are `Option String` (Python `None` or a string).  A grid is a list
of rows, each row a list of cells; jagged grids, including empty rows, are in
the domain, exactly as the Python functions receive them.  Python exceptions
that can escape — the `IndexError` raised by `project_row[0]` on an empty row,
and the `OverflowError` raised by CPython's `datetime.date` when an argument
does not fit in a C int (the source's `except ValueError` does not catch it) —
are modelled with `Except Unit`.  The `ValueError`s the source does catch
(`try ... except ValueError: continue`) are the calendar-range failure of
`datetime.date`, modelled by `mkDate` returning `.valueError`, and the
pydantic `ValidationError` (a `ValueError` subclass) raised by `Event(...)`
when a field violates the length constraints of `app/service/models.py`,
modelled by `mkEvent` returning `none`.
-/

/-- A grid cell: Python `None` or a string. -/
abbrev Cell := Option String

/-- One spreadsheet row. -/
abbrev Row := List Cell

/-- The raw grid handed to `parse_calendar`. -/
abbrev Grid := List Row

/-- Python `s.strip()`: remove whitespace from both ends (written on the
character list so that it evaluates inside the kernel). -/
def pyStrip (s : String) : String :=
  ⟨((s.data.dropWhile Char.isWhitespace).reverse.dropWhile Char.isWhitespace).reverse⟩

/-- Python `str(cell).strip() if cell is not None else ""`. -/
def cellStr : Cell → String
  | none => ""
  | some s => pyStrip s

/-- Python `row[i]` where the caller guarantees nothing: out-of-range reads
give `none` and are only used where the source guards the index. -/
def cellAt (r : Row) (i : Nat) : Cell := r.getD i none

/-- Trimmed text of cell `i` of a row (empty string for `None` / missing). -/
def cellText (r : Row) (i : Nat) : String := cellStr (cellAt r i)

/-- Python `s.isdigit()` restricted to ASCII digits: non-empty and all digits. -/
def pyIsDigit (s : String) : Bool := !s.data.isEmpty && s.data.all Char.isDigit

/-- Decimal value of a digit character list, most significant first. -/
def digitsToNat : List Char → Nat → Nat
  | [], acc => acc
  | c :: cs, acc => digitsToNat cs (acc * 10 + (c.toNat - 48))

/-- Python `int(s)` for a digit string (the source calls it only after
`s.isdigit()` succeeded). -/
def pyInt (s : String) : Nat := digitsToNat s.data 0

/-- Python `datetime.date`: year, month, day as constructed by `date(y, m, d)`. -/
structure PyDate where
  year : Nat
  month : Nat
  day : Nat
deriving DecidableEq

/-- Gregorian leap-year rule used by `datetime.date`. -/
def isLeapYear (y : Nat) : Bool := y % 4 == 0 && (y % 100 != 0 || y % 400 == 0)

/-- Number of days of month `m` of year `y` (as validated by `datetime.date`). -/
def daysInMonth (y m : Nat) : Nat :=
  if m = 2 then (if isLeapYear y then 29 else 28)
  else if m = 4 ∨ m = 6 ∨ m = 9 ∨ m = 11 then 30
  else 31

/-- Outcome of constructing a `datetime.date`: a date, a `ValueError` (caught
by the source's `except ValueError`), or an `OverflowError` (argument too
large for a C int; NOT caught, it propagates out of `parse_calendar`). -/
inductive DateResult where
  | ok (d : PyDate)
  | valueError
  | overflowError
deriving DecidableEq

/-- Python `date(y, m, d)` as CPython behaves: arguments are first converted
to C ints, so a value of at least `2 ^ 31` raises `OverflowError`; in-range
arguments that do not form a valid calendar date raise `ValueError`. -/
def mkDate (y m d : Nat) : DateResult :=
  if y < 2 ^ 31 ∧ m < 2 ^ 31 ∧ d < 2 ^ 31 then
    if 1 ≤ y ∧ y ≤ 9999 ∧ 1 ≤ m ∧ m ≤ 12 ∧ 1 ≤ d ∧ d ≤ daysInMonth y m then
      .ok ⟨y, m, d⟩
    else .valueError
  else .overflowError

/-- Python `date` ordering: lexicographic on (year, month, day). -/
def PyDate.leB (a b : PyDate) : Bool :=
  decide (a.year < b.year) ||
    (decide (a.year = b.year) &&
      (decide (a.month < b.month) ||
        (decide (a.month = b.month) && decide (a.day ≤ b.day))))

/-- The `Event` record of `app/service/models.py` as the parser populates it:
`project` (may be empty for vertical events), `date`, `activity`. -/
structure Event where
  project : String
  date : PyDate
  activity : String
deriving DecidableEq

/-- Constructing `Event(project=..., date=..., activity=...)` through pydantic:
the model declares `project: min_length=0, max_length=255` and
`activity: min_length=1, max_length=500`, and a violation raises
`ValidationError`, a `ValueError` subclass that the parser's
`except ValueError` swallows — modelled by `none`.  (The strings the parser
passes are already stripped, so `str_strip_whitespace` and the stripping
validator change nothing.) -/
def mkEvent (project : String) (d : PyDate) (activity : String) : Option Event :=
  if project.length ≤ 255 ∧ 1 ≤ activity.length ∧ activity.length ≤ 500 then
    some ⟨project, d, activity⟩
  else none

/-- The `MONTHS` table of `config.py`: Russian month name to month number. -/
def MONTHS : List (String × Nat) :=
  [("ЯНВАРЬ", 1), ("ФЕВРАЛЬ", 2), ("МАРТ", 3), ("АПРЕЛЬ", 4), ("МАЙ", 5),
   ("ИЮНЬ", 6), ("ИЮЛЬ", 7), ("АВГУСТ", 8), ("СЕНТЯБРЬ", 9), ("ОКТЯБРЬ", 10),
   ("НОЯБРЬ", 11), ("ДЕКАБРЬ", 12)]

/-- Python `row and row[0] in MONTHS`, returning the month number `MONTHS[row[0]]`
on success.  The first cell is compared raw (no strip), `None` never matches. -/
def monthOf : Row → Option Nat
  | [] => none
  | none :: _ => none
  | some s :: _ => MONTHS.lookup s

/-- Source `_has_dates_df(row_slice)`: some non-`None` cell whose stripped text
is a digit string. -/
def hasDates (cells : List Cell) : Bool :=
  cells.any fun c =>
    match c with
    | none => false
    | some s => pyIsDigit (pyStrip s)

/-- Python `current_row and current_row[0] in MONTHS` as a Bool. -/
def isMonthRow (r : Row) : Bool := (monthOf r).isSome

/-- Line 161 of the source: `current_row and self._has_dates_df(current_row[1:])`. -/
def isDatesHeader (r : Row) : Bool := !r.isEmpty && hasDates (r.drop 1)

/-- Lines 171-173: the condition that stops collecting project rows
(`(project_row and project_row[0] in MONTHS) or self._has_dates_df(project_row[1:])`). -/
def stopRow (r : Row) : Bool := isMonthRow r || hasDates (r.drop 1)

/-- Source `_find_vertical_activities`, inner loop over `project_rows`:
the trimmed texts of column `dayIdx`, one per row long enough to have the
column (`if day_idx < len(project_row)`). -/
def columnActivities (projectRows : List Row) (dayIdx : Nat) : List String :=
  projectRows.filterMap fun r =>
    if dayIdx < r.length then some (cellText r dayIdx) else none

/-- The non-empty entries of a column: their number is the source's
`non_empty_projects` counter, their distinct values the source's
`set(activities_in_column) - {""}`. -/
def columnNonEmpty (projectRows : List Row) (dayIdx : Nat) : List String :=
  (columnActivities projectRows dayIdx).filter (fun a => a != "")

/-- One column step of `_find_vertical_activities`: if more than one collected
row has a non-empty value (`non_empty_projects > 1`) and the set of non-empty
values is a singleton (`len(unique_activities) == 1`), that value; otherwise
nothing. -/
def columnVertical (projectRows : List Row) (dayIdx : Nat) : Option String :=
  if 1 < (columnNonEmpty projectRows dayIdx).length then
    match (columnNonEmpty projectRows dayIdx).dedup with
    | [a] => some a
    | _ => none
  else none

/-- Python `set.update` restricted to the observable part (membership):
append the element when it is new. -/
def addActivity (acc : List String) (a : String) : List String :=
  if a ∈ acc then acc else acc ++ [a]

/-- Source `_find_vertical_activities(project_rows, dates_row)`: columns
`range(1, min(len(dates_row), 8))`, collecting every shared column value. -/
def findVerticalActivities (projectRows : List Row) (datesRow : Row) : List String :=
  (List.range' 1 (min datesRow.length 8 - 1)).foldl
    (fun acc idx =>
      match columnVertical projectRows idx with
      | some a => addActivity acc a
      | none => acc)
    []

/-- State threaded through `_process_week_events_df`: the `events` list and the
`vertical_events_seen` set of (date, activity) keys. -/
abbrev WeekState := List Event × List (PyDate × String)

/-- Body of the `for day_idx in range(1, min(len(project_row), len(dates_row)))`
loop of `_process_week_events_df` for one cell.  `cellText datesRow dayIdx` is
the source's `date_str`, `cellText r dayIdx` its `activity`.  The whole body
sits in `try ... except ValueError: continue`: a `.valueError` from `mkDate`
or a `none` from `mkEvent` (pydantic `ValidationError`) skips the cell, while
`.overflowError` is not a `ValueError` and propagates (`.error ()`).  In the
vertical branch the source adds the key to `vertical_events_seen` BEFORE
constructing the `Event`, so a failing construction still records the key. -/
def processCell (vert : List String) (m y : Nat) (name : String) (datesRow r : Row)
    (st : WeekState) (dayIdx : Nat) : Except Unit WeekState :=
  if cellText datesRow dayIdx != "" && cellText r dayIdx != "" &&
      pyIsDigit (cellText datesRow dayIdx) then
    match mkDate y m (pyInt (cellText datesRow dayIdx)) with
    | .overflowError => .error ()
    | .valueError => .ok st
    | .ok d =>
      if cellText r dayIdx ∈ vert then
        if (d, cellText r dayIdx) ∈ st.2 then .ok st
        else
          match mkEvent "" d (cellText r dayIdx) with
          | some ev => .ok (st.1 ++ [ev], st.2 ++ [(d, cellText r dayIdx)])
          | none => .ok (st.1, st.2 ++ [(d, cellText r dayIdx)])
      else
        match mkEvent name d (cellText r dayIdx) with
        | some ev => .ok (st.1 ++ [ev], st.2)
        | none => .ok st
  else .ok st

/-- The column indices the source iterates for one project row:
`range(1, min(len(project_row), len(dates_row)))`. -/
def rowIndices (r datesRow : Row) : List Nat :=
  List.range' 1 (min r.length datesRow.length - 1)

/-- One project row of `_process_week_events_df`.  `project_row[0]` on an empty
row raises `IndexError` in Python: that is the `.error ()` case.  A row whose
stripped first cell is empty contributes nothing. -/
def processRow (vert : List String) (m y : Nat) (datesRow : Row)
    (st : WeekState) : Row → Except Unit WeekState
  | [] => .error ()
  | c :: tl =>
    if cellStr c = "" then .ok st
    else
      (rowIndices (c :: tl) datesRow).foldlM
        (processCell vert m y (cellStr c) datesRow (c :: tl)) st

/-- Source `_process_week_events_df(project_rows, dates_row, month, year)`:
compute the vertical activities of the week, then run the row loop from the
empty `events` list and empty `vertical_events_seen` set; an uncaught
`IndexError` in the loop propagates. -/
def processWeekEventsDf (projectRows : List Row) (datesRow : Row) (m y : Nat) :
    Except Unit (List Event) :=
  match projectRows.foldlM
      (processRow (findVerticalActivities projectRows datesRow) m y datesRow)
      (([], []) : WeekState) with
  | .error e => .error e
  | .ok st => .ok st.1

/-- The cursor loop of `parse_calendar` (lines 143-187).  `fuel` only bounds the
recursion depth; `scanCalendar_fuel_irrel` below shows any `fuel ≥ g.length`
gives the same result, so the entry point `parseCalendar` (which passes
`g.length`) computes exactly the Python loop, which consumes at least one row
per iteration.  `cm` is the `current_month` in scope (none before the first
month marker row). -/
def scanCalendar : Nat → Option Nat → Grid → Except Unit (List Event)
  | 0, _, _ => .ok []
  | _ + 1, _, [] => .ok []
  | fuel + 1, cm, r :: rest =>
    match monthOf r with
    | some m => scanCalendar fuel (some m) rest
    | none =>
      match cm with
      | none => scanCalendar fuel none rest
      | some m =>
        if isDatesHeader r then
          match processWeekEventsDf (rest.takeWhile (fun x => !stopRow x)) r m 2025 with
          | .error e => .error e
          | .ok wk =>
            match scanCalendar fuel (some m) (rest.dropWhile (fun x => !stopRow x)) with
            | .error e => .error e
            | .ok evs => .ok (wk ++ evs)
        else scanCalendar fuel (some m) rest

/-- Stable insertion of an event into a list sorted by date: the new event goes
before the first strictly later event, after all earlier-or-equal ones. -/
def insertByDate (e : Event) : List Event → List Event
  | [] => [e]
  | x :: xs => if PyDate.leB e.date x.date then e :: x :: xs else x :: insertByDate e xs

/-- Python `events.sort(key=lambda x: x.date)`: the stable ascending sort by
`date` (stable sorting by a key is unique as a function, so insertion sort is
the function `list.sort` computes). -/
def sortByDate : List Event → List Event
  | [] => []
  | x :: xs => insertByDate x (sortByDate xs)

/-- Source `parse_calendar(data)`: scan the grid, then sort by date. -/
def parseCalendar (g : Grid) : Except Unit (List Event) :=
  (scanCalendar g.length none g).map sortByDate

/-- Source `filter_events(events, start_date, end_date)`.  Python `date` objects
are always truthy, so the four branches are exactly the `some`/`none` cases. -/
def filterEvents (events : List Event) (startDate endDate : Option PyDate) :
    List Event :=
  match startDate, endDate with
  | some s, some e => events.filter fun ev => PyDate.leB s ev.date && PyDate.leB ev.date e
  | some s, none => events.filter fun ev => PyDate.leB s ev.date
  | none, some e => events.filter fun ev => PyDate.leB ev.date e
  | none, none => events

/-! Concrete grids used to settle the claims on explicit inputs. -/

/-- The spec's own §8 scenario grid. -/
def gridC1 : Grid :=
  [[some "ИЮЛЬ"], [some "", some "1", some "2"],
   [some "Проект А", some "Сбор", some "Сбор"],
   [some "Проект Б", some "Сбор", some ""]]

/-- The two project rows of `gridC1`. -/
def projRowsC1 : List Row :=
  [[some "Проект А", some "Сбор", some "Сбор"],
   [some "Проект Б", some "Сбор", some ""]]

/-- The date-header row of `gridC1`. -/
def datesC1 : Row := [some "", some "1", some "2"]

/-- A date-header row with eight day columns (indices 1..8, days 1..8). -/
def datesC2 : Row :=
  [some "", some "1", some "2", some "3", some "4", some "5", some "6", some "7",
   some "8"]

/-- Two project rows that agree on the non-empty text "X" exactly in column 8. -/
def rowsC2 : List Row :=
  [[some "A", some "", some "", some "", some "", some "", some "", some "", some "X"],
   [some "B", some "", some "", some "", some "", some "", some "", some "", some "X"]]

/-- Grid whose day-2 column holds differing non-empty texts "X" and "Y" while
"X" is vertical from the day-1 column. -/
def gridC3 : Grid :=
  [[some "ИЮЛЬ"], [some "", some "1", some "2"],
   [some "Проект А", some "X", some "X"],
   [some "Проект Б", some "X", some "Y"]]

/-- The two project rows of `gridC3`. -/
def projRowsC3 : List Row :=
  [[some "Проект А", some "X", some "X"], [some "Проект Б", some "X", some "Y"]]

/-- The date-header row of `gridC3`. -/
def datesC3 : Row := [some "", some "1", some "2"]

/-- Grid whose day-1 column has two project rows with the identical non-empty
text "X" and a third project row with a different text "Y". -/
def gridC4 : Grid :=
  [[some "ИЮЛЬ"], [some "", some "1"],
   [some "A", some "X"], [some "B", some "X"], [some "C", some "Y"]]

/-- Week rows where both projects share "X" on day 1. -/
def wrowsC4 : List Row := [[some "A", some "X"], [some "B", some "X"]]

/-- A two-column date-header row (day 1 only). -/
def datesC4 : Row := [some "", some "1"]

/-- Grid whose scan produces events out of date order, with two events sharing
a date. -/
def gridC5 : Grid :=
  [[some "ИЮЛЬ"], [some "", some "2", some "1"],
   [some "П1", some "A", some "B"], [some "П2", some "C", some ""]]

/-- Grid with malformed day cells ("пн", "32", "-") and a row whose first cell
is Python `None`. -/
def gridC6 : Grid :=
  [[some "ИЮЛЬ"], [some "", some "пн", some "1", some "32", some "-"],
   [some "П", some "a", some "b", some "c", some "d"],
   [none, some "x"]]

/-- Grid whose day-1 column holds "X" in a named row and in a row with empty
column 0, plus "Y" in another named row. -/
def gridC10 : Grid :=
  [[some "ИЮЛЬ"], [some "", some "1"],
   [some "A", some "X"], [some "", some "X"], [some "B", some "Y"]]

/-- The week rows of `gridC10`. -/
def wrowsC10 : List Row :=
  [[some "A", some "X"], [some "", some "X"], [some "B", some "Y"]]

/-- The date-header row of `gridC10`. -/
def datesC10 : Row := [some "", some "1"]

/-- Week rows where a named row and an empty-column-0 row share "X" on day 1. -/
def wrowsC10W : List Row := [[some "A", some "X"], [some "", some "X"]]

instance {ε α : Type} [DecidableEq ε] [DecidableEq α] : DecidableEq (Except ε α) :=
  fun a b =>
    match a, b with
    | .error e, .error f => decidable_of_iff (e = f) ⟨fun h => h ▸ rfl, fun h => by injection h⟩
    | .error _, .ok _ => isFalse fun h => Except.noConfusion h
    | .ok _, .error _ => isFalse fun h => Except.noConfusion h
    | .ok x, .ok y => decidable_of_iff (x = y) ⟨fun h => h ▸ rfl, fun h => by injection h⟩

/-! Order properties of the `date` comparison. -/

theorem PyDate.leB_iff (a b : PyDate) :
    PyDate.leB a b = true ↔
      a.year < b.year ∨
        (a.year = b.year ∧ (a.month < b.month ∨ (a.month = b.month ∧ a.day ≤ b.day))) := by
  simp [PyDate.leB]

theorem PyDate.leB_refl (a : PyDate) : PyDate.leB a a = true := by
  rw [PyDate.leB_iff]; omega

theorem PyDate.leB_total (a b : PyDate) :
    PyDate.leB a b = true ∨ PyDate.leB b a = true := by
  rw [PyDate.leB_iff, PyDate.leB_iff]; omega

theorem PyDate.leB_trans {a b c : PyDate} (h₁ : PyDate.leB a b = true)
    (h₂ : PyDate.leB b c = true) : PyDate.leB a c = true := by
  rw [PyDate.leB_iff] at h₁ h₂ ⊢; omega

theorem PyDate.leB_antisymm {a b : PyDate} (h₁ : PyDate.leB a b = true)
    (h₂ : PyDate.leB b a = true) : a = b := by
  obtain ⟨y₁, m₁, d₁⟩ := a
  obtain ⟨y₂, m₂, d₂⟩ := b
  rw [PyDate.leB_iff] at h₁ h₂
  simp only [PyDate.mk.injEq]
  simp only at h₁ h₂
  omega

theorem PyDate.leB_of_not_leB {a b : PyDate} (h : PyDate.leB a b = false) :
    PyDate.leB b a = true := by
  rcases PyDate.leB_total a b with h' | h'
  · rw [h'] at h; cases h
  · exact h'

theorem PyDate.ne_of_not_leB {a b : PyDate} (h : PyDate.leB a b = false) : a ≠ b := by
  intro he
  rw [he, PyDate.leB_refl] at h
  exact Bool.noConfusion h

/-- Comparison the sort of `parse_calendar` orders events by. -/
def eventLe (a b : Event) : Prop := PyDate.leB a.date b.date = true

/-! Sorting lemmas: `sortByDate` sorts and is stable. -/

theorem mem_insertByDate {e x : Event} {l : List Event} :
    x ∈ insertByDate e l ↔ x = e ∨ x ∈ l := by
  induction l with
  | nil => simp [insertByDate]
  | cons y ys ih =>
    simp only [insertByDate]
    split
    · simp [List.mem_cons]
    · simp only [List.mem_cons, ih]
      tauto

theorem pairwise_insertByDate {e : Event} {l : List Event}
    (h : l.Pairwise eventLe) : (insertByDate e l).Pairwise eventLe := by
  induction l with
  | nil => simp [insertByDate]
  | cons y ys ih =>
    rw [List.pairwise_cons] at h
    obtain ⟨hy, hys⟩ := h
    simp only [insertByDate]
    split
    · rename_i hle
      rw [List.pairwise_cons]
      refine ⟨?_, List.pairwise_cons.mpr ⟨hy, hys⟩⟩
      intro z hz
      rcases List.mem_cons.mp hz with rfl | hz'
      · exact hle
      · exact PyDate.leB_trans hle (hy z hz')
    · rename_i hle
      rw [List.pairwise_cons]
      refine ⟨?_, ih hys⟩
      intro z hz
      rcases mem_insertByDate.mp hz with rfl | hz'
      · exact PyDate.leB_of_not_leB (Bool.eq_false_iff.mpr hle)
      · exact hy z hz'

theorem sortByDate_pairwise (l : List Event) : (sortByDate l).Pairwise eventLe := by
  induction l with
  | nil => simp [sortByDate]
  | cons x xs ih => exact pairwise_insertByDate ih

theorem mem_sortByDate {x : Event} {l : List Event} : x ∈ sortByDate l ↔ x ∈ l := by
  induction l with
  | nil => simp [sortByDate]
  | cons y ys ih =>
    simp only [sortByDate, mem_insertByDate, List.mem_cons, ih]

theorem filter_insertByDate (d : PyDate) (e : Event) (l : List Event) :
    (insertByDate e l).filter (fun x => decide (x.date = d)) =
      ((e :: l).filter (fun x => decide (x.date = d))) := by
  induction l with
  | nil => simp [insertByDate]
  | cons y ys ih =>
    simp only [insertByDate]
    split
    · rfl
    · rename_i hle
      have hle' : PyDate.leB e.date y.date = false := Bool.eq_false_iff.mpr hle
      by_cases hy : y.date = d
      · by_cases he : e.date = d
        · exfalso
          exact PyDate.ne_of_not_leB hle' (he.trans hy.symm)
        · simp [List.filter_cons, hy, he, ih]
      · by_cases he : e.date = d
        · simp [List.filter_cons, hy, he, ih]
        · simp [List.filter_cons, hy, he, ih]

theorem filter_sortByDate (d : PyDate) (l : List Event) :
    (sortByDate l).filter (fun x => decide (x.date = d)) =
      l.filter (fun x => decide (x.date = d)) := by
  induction l with
  | nil => rfl
  | cons x xs ih =>
    simp only [sortByDate, filter_insertByDate, List.filter_cons, ih]

/-! Characterization of the vertical-activity computation. -/

theorem mem_addActivity {b a : String} {acc : List String} :
    b ∈ addActivity acc a ↔ b ∈ acc ∨ b = a := by
  unfold addActivity
  split
  · rename_i ha
    constructor
    · exact Or.inl
    · rintro (h | rfl)
      · exact h
      · exact ha
  · simp

theorem columnVertical_eq_some_iff {rows : List Row} {i : Nat} {a : String} :
    columnVertical rows i = some a ↔
      1 < (columnNonEmpty rows i).length ∧ ∀ b ∈ columnNonEmpty rows i, b = a := by
  unfold columnVertical
  split
  · rename_i hlen
    simp only [hlen, true_and]
    rcases hd : (columnNonEmpty rows i).dedup with _ | ⟨x, _ | ⟨y, tl⟩⟩
    · have hnil : columnNonEmpty rows i = [] := by
        exact (List.dedup_eq_nil (columnNonEmpty rows i)).mp hd
      rw [hnil] at hlen
      simp at hlen
    · simp only []
      constructor
      · intro h
        have hxa : x = a := by injection h
        intro b hb
        have hbd : b ∈ (columnNonEmpty rows i).dedup := List.mem_dedup.mpr hb
        rw [hd] at hbd
        rcases List.mem_singleton.mp hbd with rfl
        exact hxa
      · intro hall
        have hx : x ∈ (columnNonEmpty rows i).dedup := by rw [hd]; exact List.mem_singleton.mpr rfl
        have := hall x (List.mem_dedup.mp hx)
        rw [this]
    · constructor
      · intro h
        exact Option.noConfusion h
      · intro hall
        exfalso
        have hnd := List.nodup_dedup (columnNonEmpty rows i)
        rw [hd] at hnd
        have hx : x ∈ (columnNonEmpty rows i).dedup := by rw [hd]; simp
        have hy : y ∈ (columnNonEmpty rows i).dedup := by rw [hd]; simp
        have hxa := hall x (List.mem_dedup.mp hx)
        have hya := hall y (List.mem_dedup.mp hy)
        rw [List.nodup_cons] at hnd
        exact hnd.1 (by rw [hxa, hya]; simp)
  · rename_i hlen
    simp [hlen]

theorem mem_verticalFold {rows : List Row} {b : String} :
    ∀ (idxs : List Nat) (acc : List String),
      b ∈ idxs.foldl
            (fun acc idx =>
              match columnVertical rows idx with
              | some a => addActivity acc a
              | none => acc) acc ↔
        b ∈ acc ∨ ∃ i ∈ idxs, columnVertical rows i = some b := by
  intro idxs
  induction idxs with
  | nil => simp
  | cons j js ih =>
    intro acc
    rw [List.foldl_cons]
    rcases hj : columnVertical rows j with _ | a
    · simp only [hj, ih]
      constructor
      · rintro (h | ⟨i, hi, hvi⟩)
        · exact Or.inl h
        · exact Or.inr ⟨i, List.mem_cons_of_mem _ hi, hvi⟩
      · rintro (h | ⟨i, hi, hvi⟩)
        · exact Or.inl h
        · rcases List.mem_cons.mp hi with rfl | hi'
          · rw [hj] at hvi; exact Option.noConfusion hvi
          · exact Or.inr ⟨i, hi', hvi⟩
    · simp only [hj, ih, mem_addActivity]
      constructor
      · rintro ((h | rfl) | ⟨i, hi, hvi⟩)
        · exact Or.inl h
        · exact Or.inr ⟨j, List.mem_cons_self j js, hj⟩
        · exact Or.inr ⟨i, List.mem_cons_of_mem _ hi, hvi⟩
      · rintro (h | ⟨i, hi, hvi⟩)
        · exact Or.inl (Or.inl h)
        · rcases List.mem_cons.mp hi with rfl | hi'
          · rw [hj] at hvi
            have : a = b := by injection hvi
            exact Or.inl (Or.inr this.symm)
          · exact Or.inr ⟨i, hi', hvi⟩

theorem mem_findVerticalActivities_iff {rows : List Row} {dates : Row} {a : String} :
    a ∈ findVerticalActivities rows dates ↔
      ∃ i, 1 ≤ i ∧ i < min dates.length 8 ∧ columnVertical rows i = some a := by
  unfold findVerticalActivities
  rw [mem_verticalFold]
  simp only [List.mem_nil_iff, false_or]
  constructor
  · rintro ⟨i, hi, hvi⟩
    rw [List.mem_range'_1] at hi
    exact ⟨i, hi.1, by omega, hvi⟩
  · rintro ⟨i, h1, h2, hvi⟩
    refine ⟨i, ?_, hvi⟩
    rw [List.mem_range'_1]
    omega

theorem columnVertical_eq_none_of_differing {rows : List Row} {i : Nat}
    {b₁ b₂ : String} (h₁ : b₁ ∈ columnNonEmpty rows i) (h₂ : b₂ ∈ columnNonEmpty rows i)
    (hne : b₁ ≠ b₂) : columnVertical rows i = none := by
  rcases hv : columnVertical rows i with _ | a
  · rfl
  · exfalso
    have hall := (columnVertical_eq_some_iff.mp hv).2
    exact hne ((hall b₁ h₁).trans (hall b₂ h₂).symm)

/-! Week-processing lemmas. -/

theorem mkDate_roundtrip {y m k : Nat} {d : PyDate} (h : mkDate y m k = .ok d) :
    d.year = y ∧ d.month = m ∧ d.day = k ∧ mkDate y m d.day = .ok d := by
  unfold mkDate at h ⊢
  split at h
  · rename_i hb
    split at h
    · rename_i hc
      injection h with h'
      subst h'
      refine ⟨rfl, rfl, rfl, ?_⟩
      show (if y < 2 ^ 31 ∧ m < 2 ^ 31 ∧ k < 2 ^ 31 then
          if 1 ≤ y ∧ y ≤ 9999 ∧ 1 ≤ m ∧ m ≤ 12 ∧ 1 ≤ k ∧ k ≤ daysInMonth y m then
            DateResult.ok ⟨y, m, k⟩
          else .valueError
        else .overflowError) = .ok ⟨y, m, k⟩
      rw [if_pos hb, if_pos hc]
    · exact DateResult.noConfusion h
  · exact DateResult.noConfusion h

theorem mkDate_ne_overflow {y m d : Nat} (hy : y < 2 ^ 31) (hm : m < 2 ^ 31)
    (hd : d < 2 ^ 31) : mkDate y m d ≠ .overflowError := by
  unfold mkDate
  rw [if_pos ⟨hy, hm, hd⟩]
  split
  · exact fun hc => DateResult.noConfusion hc
  · exact fun hc => DateResult.noConfusion hc

theorem mkEvent_eq_some {p : String} {d : PyDate} {a : String} {e : Event}
    (h : mkEvent p d a = some e) : e = ⟨p, d, a⟩ := by
  unfold mkEvent at h
  split at h
  · injection h with h'
    exact h'.symm
  · exact Option.noConfusion h

theorem one_le_length_of_ne_empty {a : String} (h : a ≠ "") : 1 ≤ a.length := by
  cases a with
  | mk l =>
    cases l with
    | nil => exact absurd rfl h
    | cons c cs => exact Nat.succ_le_succ (Nat.zero_le cs.length)

theorem mkEvent_empty_project {d : PyDate} {a : String} (h1 : a ≠ "")
    (h2 : a.length ≤ 500) : mkEvent "" d a = some ⟨"", d, a⟩ := by
  unfold mkEvent
  rw [if_pos ⟨by decide, one_le_length_of_ne_empty h1, h2⟩]

theorem processCell_cases (vert : List String) (m y : Nat) (name : String)
    (datesRow r : Row) (st : WeekState) (i : Nat) :
    processCell vert m y name datesRow r st i = .ok st ∨
      (pyIsDigit (cellText datesRow i) = true ∧
        mkDate y m (pyInt (cellText datesRow i)) = .overflowError ∧
        processCell vert m y name datesRow r st i = .error ()) ∨
      (∃ d, mkDate y m (pyInt (cellText datesRow i)) = .ok d ∧ cellText r i ≠ "" ∧
        ((cellText r i ∈ vert ∧ (d, cellText r i) ∉ st.2 ∧
            ((mkEvent "" d (cellText r i) = some ⟨"", d, cellText r i⟩ ∧
                processCell vert m y name datesRow r st i =
                  .ok (st.1 ++ [⟨"", d, cellText r i⟩], st.2 ++ [(d, cellText r i)])) ∨
              (mkEvent "" d (cellText r i) = none ∧
                processCell vert m y name datesRow r st i =
                  .ok (st.1, st.2 ++ [(d, cellText r i)])))) ∨
          (cellText r i ∉ vert ∧
            ((mkEvent name d (cellText r i) = some ⟨name, d, cellText r i⟩ ∧
                processCell vert m y name datesRow r st i =
                  .ok (st.1 ++ [⟨name, d, cellText r i⟩], st.2)) ∨
              (mkEvent name d (cellText r i) = none ∧
                processCell vert m y name datesRow r st i = .ok st))))) := by
  by_cases hcond : (cellText datesRow i != "" && cellText r i != "" &&
      pyIsDigit (cellText datesRow i)) = true
  · have hcond' := hcond
    simp only [Bool.and_eq_true, bne_iff_ne] at hcond'
    have hact : cellText r i ≠ "" := hcond'.1.2
    have hdig : pyIsDigit (cellText datesRow i) = true := hcond'.2
    rcases hd : mkDate y m (pyInt (cellText datesRow i)) with d | _ | _
    · by_cases hvert : cellText r i ∈ vert
      · by_cases hseen : (d, cellText r i) ∈ st.2
        · have heq : processCell vert m y name datesRow r st i = .ok st := by
            unfold processCell
            rw [if_pos hcond]
            simp only [hd]
            rw [if_pos hvert, if_pos hseen]
          exact Or.inl heq
        · rcases hv : mkEvent "" d (cellText r i) with _ | ev
          · have heq : processCell vert m y name datesRow r st i =
                .ok (st.1, st.2 ++ [(d, cellText r i)]) := by
              unfold processCell
              rw [if_pos hcond]
              simp only [hd]
              rw [if_pos hvert, if_neg hseen]
              simp only [hv]
            exact Or.inr (Or.inr ⟨d, rfl, hact, Or.inl ⟨hvert, hseen, Or.inr ⟨hv, heq⟩⟩⟩)
          · have hev := mkEvent_eq_some hv
            subst hev
            have heq : processCell vert m y name datesRow r st i =
                .ok (st.1 ++ [⟨"", d, cellText r i⟩], st.2 ++ [(d, cellText r i)]) := by
              unfold processCell
              rw [if_pos hcond]
              simp only [hd]
              rw [if_pos hvert, if_neg hseen]
              simp only [hv]
            exact Or.inr (Or.inr ⟨d, rfl, hact, Or.inl ⟨hvert, hseen, Or.inl ⟨hv, heq⟩⟩⟩)
      · rcases hv : mkEvent name d (cellText r i) with _ | ev
        · have heq : processCell vert m y name datesRow r st i = .ok st := by
            unfold processCell
            rw [if_pos hcond]
            simp only [hd]
            rw [if_neg hvert]
            simp only [hv]
          exact Or.inr (Or.inr ⟨d, rfl, hact, Or.inr ⟨hvert, Or.inr ⟨hv, heq⟩⟩⟩)
        · have hev := mkEvent_eq_some hv
          subst hev
          have heq : processCell vert m y name datesRow r st i =
              .ok (st.1 ++ [⟨name, d, cellText r i⟩], st.2) := by
            unfold processCell
            rw [if_pos hcond]
            simp only [hd]
            rw [if_neg hvert]
            simp only [hv]
          exact Or.inr (Or.inr ⟨d, rfl, hact, Or.inr ⟨hvert, Or.inl ⟨hv, heq⟩⟩⟩)
    · have heq : processCell vert m y name datesRow r st i = .ok st := by
        unfold processCell
        rw [if_pos hcond]
        simp only [hd]
      exact Or.inl heq
    · have heq : processCell vert m y name datesRow r st i = .error () := by
        unfold processCell
        rw [if_pos hcond]
        simp only [hd]
      exact Or.inr (Or.inl ⟨hdig, rfl, heq⟩)
  · have heq : processCell vert m y name datesRow r st i = .ok st := by
      unfold processCell
      rw [if_neg hcond]
    exact Or.inl heq

theorem processCell_shape {vert : List String} {m y : Nat} {name : String}
    {datesRow r : Row} {st : WeekState} {i : Nat} {st' : WeekState}
    (h : processCell vert m y name datesRow r st i = .ok st') :
    ∃ el kl, st' = (st.1 ++ el, st.2 ++ kl) := by
  rcases processCell_cases vert m y name datesRow r st i with heq | ⟨_, _, heq⟩ |
    ⟨d, hd, hact, hc⟩
  · rw [heq] at h
    injection h with h'
    exact ⟨[], [], by rw [← h']; simp⟩
  · rw [heq] at h
    exact Except.noConfusion h
  · rcases hc with ⟨hv, hs, ⟨hmk, heq⟩ | ⟨hmk, heq⟩⟩ | ⟨hv, ⟨hmk, heq⟩ | ⟨hmk, heq⟩⟩
    · rw [heq] at h
      injection h with h'
      exact ⟨[⟨"", d, cellText r i⟩], [(d, cellText r i)], h'.symm⟩
    · rw [heq] at h
      injection h with h'
      exact ⟨[], [(d, cellText r i)], by rw [← h']; simp⟩
    · rw [heq] at h
      injection h with h'
      exact ⟨[⟨name, d, cellText r i⟩], [], by rw [← h']; simp⟩
    · rw [heq] at h
      injection h with h'
      exact ⟨[], [], by rw [← h']; simp⟩

theorem foldCells_shape {vert : List String} {m y : Nat} {name : String}
    {datesRow r : Row} :
    ∀ (idxs : List Nat) (st st' : WeekState),
      idxs.foldlM (processCell vert m y name datesRow r) st = .ok st' →
      ∃ el kl, st' = (st.1 ++ el, st.2 ++ kl) := by
  intro idxs
  induction idxs with
  | nil =>
    intro st st' h
    have h₂ : (Except.ok st : Except Unit WeekState) = Except.ok st' := h
    injection h₂ with h'
    exact ⟨[], [], by rw [← h']; simp⟩
  | cons j js ih =>
    intro st st' h
    rw [List.foldlM_cons] at h
    rcases hj : processCell vert m y name datesRow r st j with e | st₁
    · rw [hj] at h
      exact Except.noConfusion h
    · rw [hj] at h
      obtain ⟨el₂, kl₂, h₂⟩ := ih st₁ st' h
      obtain ⟨el₁, kl₁, h₁⟩ := processCell_shape hj
      exact ⟨el₁ ++ el₂, kl₁ ++ kl₂, by rw [h₂, h₁]; simp⟩

theorem processRow_shape {vert : List String} {m y : Nat} {datesRow : Row}
    {st : WeekState} {r : Row} {st' : WeekState}
    (h : processRow vert m y datesRow st r = .ok st') :
    ∃ el kl, st' = (st.1 ++ el, st.2 ++ kl) := by
  cases r with
  | nil => exact Except.noConfusion h
  | cons c tl =>
    simp only [processRow] at h
    split at h
    · injection h with h'
      exact ⟨[], [], by rw [← h']; simp⟩
    · exact foldCells_shape _ st st' h

theorem foldRowsM_shape {vert : List String} {m y : Nat} {datesRow : Row} :
    ∀ (rows : List Row) (st st' : WeekState),
      rows.foldlM (processRow vert m y datesRow) st = .ok st' →
      ∃ el kl, st' = (st.1 ++ el, st.2 ++ kl) := by
  intro rows
  induction rows with
  | nil =>
    intro st st' h
    have h₂ : (Except.ok st : Except Unit WeekState) = Except.ok st' := h
    injection h₂ with h'
    exact ⟨[], [], by rw [← h']; simp⟩
  | cons r rs ih =>
    intro st st' h
    rw [List.foldlM_cons] at h
    rcases hr : processRow vert m y datesRow st r with e | st₁
    · rw [hr] at h
      exact Except.noConfusion h
    · rw [hr] at h
      obtain ⟨el₂, kl₂, h₂⟩ := ih st₁ st' h
      obtain ⟨el₁, kl₁, h₁⟩ := processRow_shape hr
      refine ⟨el₁ ++ el₂, kl₁ ++ kl₂, ?_⟩
      rw [h₂, h₁]
      simp

/-- Invariant satisfied by every event a week block emits: its date is the
valid date the source built with `date(year, month, int(date_str))`, and its
project is empty exactly when its activity is a vertical activity. -/
def EvOk (vert : List String) (m y : Nat) (e : Event) : Prop :=
  mkDate y m e.date.day = .ok e.date ∧
    ((e.project = "" ∧ e.activity ∈ vert) ∨ (e.project ≠ "" ∧ e.activity ∉ vert))

theorem processCell_evok {vert : List String} {m y : Nat} {name : String}
    {datesRow r : Row} {st : WeekState} {i : Nat} {st' : WeekState}
    (h : processCell vert m y name datesRow r st i = .ok st') (hname : name ≠ "")
    (hall : ∀ e ∈ st.1, EvOk vert m y e) : ∀ e ∈ st'.1, EvOk vert m y e := by
  intro e he
  rcases processCell_cases vert m y name datesRow r st i with heq | ⟨_, _, heq⟩ |
    ⟨d, hd, hact, hc⟩
  · rw [heq] at h
    injection h with h'
    rw [← h'] at he
    exact hall e he
  · rw [heq] at h
    exact Except.noConfusion h
  · rcases hc with ⟨hv, hs, ⟨hmk, heq⟩ | ⟨hmk, heq⟩⟩ | ⟨hv, ⟨hmk, heq⟩ | ⟨hmk, heq⟩⟩
    · rw [heq] at h
      injection h with h'
      rw [← h'] at he
      rcases List.mem_append.mp he with h'' | h''
      · exact hall e h''
      · rcases List.mem_singleton.mp h'' with rfl
        exact ⟨(mkDate_roundtrip hd).2.2.2, Or.inl ⟨rfl, hv⟩⟩
    · rw [heq] at h
      injection h with h'
      rw [← h'] at he
      exact hall e he
    · rw [heq] at h
      injection h with h'
      rw [← h'] at he
      rcases List.mem_append.mp he with h'' | h''
      · exact hall e h''
      · rcases List.mem_singleton.mp h'' with rfl
        exact ⟨(mkDate_roundtrip hd).2.2.2, Or.inr ⟨hname, hv⟩⟩
    · rw [heq] at h
      injection h with h'
      rw [← h'] at he
      exact hall e he

theorem foldCells_evok {vert : List String} {m y : Nat} {name : String}
    {datesRow r : Row} (hname : name ≠ "") :
    ∀ (idxs : List Nat) (st st' : WeekState),
      idxs.foldlM (processCell vert m y name datesRow r) st = .ok st' →
      (∀ e ∈ st.1, EvOk vert m y e) → ∀ e ∈ st'.1, EvOk vert m y e := by
  intro idxs
  induction idxs with
  | nil =>
    intro st st' h hall
    have h₂ : (Except.ok st : Except Unit WeekState) = Except.ok st' := h
    injection h₂ with h'
    rw [← h']
    exact hall
  | cons j js ih =>
    intro st st' h hall
    rw [List.foldlM_cons] at h
    rcases hj : processCell vert m y name datesRow r st j with e | st₁
    · rw [hj] at h
      exact Except.noConfusion h
    · rw [hj] at h
      exact ih st₁ st' h (processCell_evok hj hname hall)

theorem processRow_evok {vert : List String} {m y : Nat} {datesRow : Row}
    {st : WeekState} {r : Row} {st' : WeekState}
    (h : processRow vert m y datesRow st r = .ok st')
    (hall : ∀ e ∈ st.1, EvOk vert m y e) : ∀ e ∈ st'.1, EvOk vert m y e := by
  cases r with
  | nil => exact Except.noConfusion h
  | cons c tl =>
    simp only [processRow] at h
    split at h
    · injection h with h'
      rw [← h']
      exact hall
    · rename_i hname
      exact foldCells_evok hname _ st st' h hall

theorem foldRowsM_evok {vert : List String} {m y : Nat} {datesRow : Row} :
    ∀ (rows : List Row) (st st' : WeekState),
      rows.foldlM (processRow vert m y datesRow) st = .ok st' →
      (∀ e ∈ st.1, EvOk vert m y e) → ∀ e ∈ st'.1, EvOk vert m y e := by
  intro rows
  induction rows with
  | nil =>
    intro st st' h hall
    have h₂ : (Except.ok st : Except Unit WeekState) = Except.ok st' := h
    injection h₂ with h'
    rw [← h']
    exact hall
  | cons r rs ih =>
    intro st st' h hall
    rw [List.foldlM_cons] at h
    rcases hr : processRow vert m y datesRow st r with e | st₁
    · rw [hr] at h
      exact Except.noConfusion h
    · rw [hr] at h
      exact ih st₁ st' h (processRow_evok hr hall)

/-- The `vertical_events_seen` invariant, relative to a key `(D, a)` whose
empty-project event satisfies the pydantic field bounds (so `mkEvent "" D a`
succeeds): every emitted empty-project event has its key in the seen set (the
source records the key before constructing the event), the key `(D, a)` is in
the seen set only if its event really was emitted, and no two emitted
empty-project events share a key. -/
def SeenInv (D : PyDate) (a : String) (st : WeekState) : Prop :=
  ((D, a) ∈ st.2 → ∃ e ∈ st.1, e.project = "" ∧ e.date = D ∧ e.activity = a) ∧
    (∀ d' a', (∃ e ∈ st.1, e.project = "" ∧ e.date = d' ∧ e.activity = a') →
      (d', a') ∈ st.2) ∧
    st.1.Pairwise fun e₁ e₂ =>
      e₁.project = "" → e₂.project = "" →
        ¬(e₁.date = e₂.date ∧ e₁.activity = e₂.activity)

theorem processCell_seenInv {vert : List String} {m y : Nat} {name : String}
    {datesRow r : Row} {st : WeekState} {i : Nat} {st' : WeekState} {D : PyDate}
    {a : String} (h : processCell vert m y name datesRow r st i = .ok st')
    (hname : name ≠ "") (hmk : mkEvent "" D a = some ⟨"", D, a⟩)
    (hinv : SeenInv D a st) : SeenInv D a st' := by
  obtain ⟨hex, hub, hpw⟩ := hinv
  rcases processCell_cases vert m y name datesRow r st i with heq | ⟨_, _, heq⟩ |
    ⟨d, hd, hact, hc⟩
  · rw [heq] at h
    injection h with h'
    rw [← h']
    exact ⟨hex, hub, hpw⟩
  · rw [heq] at h
    exact Except.noConfusion h
  rcases hc with ⟨hv, hs, ⟨hmk', heq⟩ | ⟨hmk', heq⟩⟩ | ⟨hv, ⟨hmk', heq⟩ | ⟨hmk', heq⟩⟩
  · rw [heq] at h
    injection h with h'
    subst h'
    refine ⟨?_, ?_, ?_⟩
    · intro hk
      rcases List.mem_append.mp hk with hk' | hk'
      · obtain ⟨e, he, hp⟩ := hex hk'
        exact ⟨e, List.mem_append_left _ he, hp⟩
      · have hk'' := List.mem_singleton.mp hk'
        rw [Prod.mk.injEq] at hk''
        exact ⟨⟨"", d, cellText r i⟩,
          List.mem_append_right _ (List.mem_singleton.mpr rfl), rfl,
          hk''.1.symm, hk''.2.symm⟩
    · rintro d' a' ⟨e, he, hp, hdt, hac⟩
      rcases List.mem_append.mp he with he' | he'
      · exact List.mem_append_left _ (hub d' a' ⟨e, he', hp, hdt, hac⟩)
      · rcases List.mem_singleton.mp he' with rfl
        apply List.mem_append_right
        simp only [List.mem_singleton, Prod.mk.injEq]
        exact ⟨hdt.symm, hac.symm⟩
    · rw [List.pairwise_append]
      refine ⟨hpw, by simp, ?_⟩
      intro e₁ he₁ e₂ he₂
      rcases List.mem_singleton.mp he₂ with rfl
      intro hp₁ _ hkey
      exact hs (hub d (cellText r i) ⟨e₁, he₁, hp₁, hkey.1, hkey.2⟩)
  · rw [heq] at h
    injection h with h'
    subst h'
    refine ⟨?_, ?_, hpw⟩
    · intro hk
      rcases List.mem_append.mp hk with hk' | hk'
      · exact hex hk'
      · exfalso
        have hk'' := List.mem_singleton.mp hk'
        rw [Prod.mk.injEq] at hk''
        rw [← hk''.1, ← hk''.2] at hmk'
        rw [hmk] at hmk'
        exact Option.noConfusion hmk'
    · intro d' a' hex'
      exact List.mem_append_left _ (hub d' a' hex')
  · rw [heq] at h
    injection h with h'
    subst h'
    refine ⟨?_, ?_, ?_⟩
    · intro hk
      obtain ⟨e, he, hp⟩ := hex hk
      exact ⟨e, List.mem_append_left _ he, hp⟩
    · rintro d' a' ⟨e, he, hp, hdt, hac⟩
      rcases List.mem_append.mp he with he' | he'
      · exact hub d' a' ⟨e, he', hp, hdt, hac⟩
      · rcases List.mem_singleton.mp he' with rfl
        exact absurd hp hname
    · rw [List.pairwise_append]
      refine ⟨hpw, by simp, ?_⟩
      intro e₁ he₁ e₂ he₂
      rcases List.mem_singleton.mp he₂ with rfl
      intro _ hp₂
      exact absurd hp₂ hname
  · rw [heq] at h
    injection h with h'
    rw [← h']
    exact ⟨hex, hub, hpw⟩

theorem foldCells_seenInv {vert : List String} {m y : Nat} {name : String}
    {datesRow r : Row} {D : PyDate} {a : String} (hname : name ≠ "")
    (hmk : mkEvent "" D a = some ⟨"", D, a⟩) :
    ∀ (idxs : List Nat) (st st' : WeekState),
      idxs.foldlM (processCell vert m y name datesRow r) st = .ok st' →
      SeenInv D a st → SeenInv D a st' := by
  intro idxs
  induction idxs with
  | nil =>
    intro st st' h hinv
    have h₂ : (Except.ok st : Except Unit WeekState) = Except.ok st' := h
    injection h₂ with h'
    rw [← h']
    exact hinv
  | cons j js ih =>
    intro st st' h hinv
    rw [List.foldlM_cons] at h
    rcases hj : processCell vert m y name datesRow r st j with e | st₁
    · rw [hj] at h
      exact Except.noConfusion h
    · rw [hj] at h
      exact ih st₁ st' h (processCell_seenInv hj hname hmk hinv)

theorem processRow_seenInv {vert : List String} {m y : Nat} {datesRow : Row}
    {st : WeekState} {r : Row} {st' : WeekState} {D : PyDate} {a : String}
    (h : processRow vert m y datesRow st r = .ok st')
    (hmk : mkEvent "" D a = some ⟨"", D, a⟩) (hinv : SeenInv D a st) :
    SeenInv D a st' := by
  cases r with
  | nil => exact Except.noConfusion h
  | cons c tl =>
    simp only [processRow] at h
    split at h
    · injection h with h'
      rw [← h']
      exact hinv
    · rename_i hname
      exact foldCells_seenInv hname hmk _ st st' h hinv

theorem foldRowsM_seenInv {vert : List String} {m y : Nat} {datesRow : Row}
    {D : PyDate} {a : String} (hmk : mkEvent "" D a = some ⟨"", D, a⟩) :
    ∀ (rows : List Row) (st st' : WeekState),
      rows.foldlM (processRow vert m y datesRow) st = .ok st' →
      SeenInv D a st → SeenInv D a st' := by
  intro rows
  induction rows with
  | nil =>
    intro st st' h hinv
    have h₂ : (Except.ok st : Except Unit WeekState) = Except.ok st' := h
    injection h₂ with h'
    rw [← h']
    exact hinv
  | cons r rs ih =>
    intro st st' h hinv
    rw [List.foldlM_cons] at h
    rcases hr : processRow vert m y datesRow st r with e | st₁
    · rw [hr] at h
      exact Except.noConfusion h
    · rw [hr] at h
      exact ih st₁ st' h (processRow_seenInv hr hmk hinv)

theorem cellText_ne_imp_lt {r : Row} {i : Nat} (h : cellText r i ≠ "") :
    i < r.length := by
  by_contra hlt
  push_neg at hlt
  apply h
  unfold cellText cellAt
  rw [List.getD_eq_default _ _ hlt]
  rfl

theorem pyIsDigit_ne_empty {s : String} (h : pyIsDigit s = true) : s ≠ "" := by
  intro hh
  rw [hh] at h
  exact absurd h (by decide)

theorem processWeekEventsDf_ok {rows : List Row} {dates : Row} {m y : Nat}
    {evs : List Event} (h : processWeekEventsDf rows dates m y = .ok evs) :
    ∃ st' : WeekState,
      rows.foldlM (processRow (findVerticalActivities rows dates) m y dates)
          (([], []) : WeekState) = .ok st' ∧ evs = st'.1 := by
  unfold processWeekEventsDf at h
  rcases hf : rows.foldlM (processRow (findVerticalActivities rows dates) m y dates)
      (([], []) : WeekState) with e | st'
  · rw [hf] at h
    exact Except.noConfusion h
  · rw [hf] at h
    have h₂ : (Except.ok st'.1 : Except Unit (List Event)) = Except.ok evs := h
    injection h₂ with h'
    exact ⟨st', rfl, h'.symm⟩

theorem processWeek_evok {rows : List Row} {dates : Row} {m y : Nat} {evs : List Event}
    (h : processWeekEventsDf rows dates m y = .ok evs) :
    ∀ e ∈ evs, EvOk (findVerticalActivities rows dates) m y e := by
  obtain ⟨st', hf, rfl⟩ := processWeekEventsDf_ok h
  exact foldRowsM_evok rows ([], []) st' hf (by intro e he; cases he)

theorem processCell_hit {vert : List String} {m y : Nat} {name : String}
    {datesRow r : Row} {i : Nat} {D : PyDate}
    (hdig : pyIsDigit (cellText datesRow i) = true)
    (hD : mkDate y m (pyInt (cellText datesRow i)) = .ok D)
    (hact : cellText r i ≠ "") (hvert : cellText r i ∈ vert) :
    ∀ st st' : WeekState, processCell vert m y name datesRow r st i = .ok st' →
      (D, cellText r i) ∈ st'.2 := by
  intro st st' h
  have hds : cellText datesRow i ≠ "" := pyIsDigit_ne_empty hdig
  have hcond : (cellText datesRow i != "" && cellText r i != "" &&
      pyIsDigit (cellText datesRow i)) = true := by
    simp only [Bool.and_eq_true, bne_iff_ne]
    exact ⟨⟨hds, hact⟩, hdig⟩
  unfold processCell at h
  simp only [hcond, if_true, hD] at h
  rw [if_pos hvert] at h
  split at h
  · rename_i hseen
    injection h with h'
    rw [← h']
    exact hseen
  · rcases hv : mkEvent "" D (cellText r i) with _ | ev
    · simp only [hv] at h
      injection h with h'
      rw [← h']
      exact List.mem_append_right _ (by simp)
    · simp only [hv] at h
      injection h with h'
      rw [← h']
      exact List.mem_append_right _ (by simp)

theorem foldCells_seen_mono {vert : List String} {m y : Nat} {name : String}
    {datesRow r : Row} {k : PyDate × String} :
    ∀ (idxs : List Nat) (st st' : WeekState),
      idxs.foldlM (processCell vert m y name datesRow r) st = .ok st' →
      k ∈ st.2 → k ∈ st'.2 := by
  intro idxs st st' h hk
  obtain ⟨el, kl, heq⟩ := foldCells_shape idxs st st' h
  rw [heq]
  exact List.mem_append_left _ hk

theorem processRow_hit {vert : List String} {m y : Nat} {datesRow : Row}
    {st : WeekState} {c : Cell} {tl : Row} {st' : WeekState} {i : Nat} {D : PyDate}
    (h : processRow vert m y datesRow st (c :: tl) = .ok st')
    (hname : cellStr c ≠ "")
    (hi1 : 1 ≤ i) (hir : i < (c :: tl).length) (hid : i < datesRow.length)
    (hdig : pyIsDigit (cellText datesRow i) = true)
    (hD : mkDate y m (pyInt (cellText datesRow i)) = .ok D)
    (hact : cellText (c :: tl) i ≠ "") (hvert : cellText (c :: tl) i ∈ vert) :
    (D, cellText (c :: tl) i) ∈ st'.2 := by
  simp only [processRow] at h
  rw [if_neg hname] at h
  have himem : i ∈ rowIndices (c :: tl) datesRow := by
    unfold rowIndices
    rw [List.mem_range'_1]
    refine ⟨hi1, ?_⟩
    have hmin : i < min (c :: tl).length datesRow.length := lt_min hir hid
    omega
  obtain ⟨l₁, l₂, hsplit⟩ := List.append_of_mem himem
  rw [hsplit, List.foldlM_append] at h
  rcases h₁ : l₁.foldlM (processCell vert m y (cellStr c) datesRow (c :: tl)) st
      with e | st₁
  · rw [h₁] at h
    exact Except.noConfusion h
  · rw [h₁] at h
    have h' : (i :: l₂).foldlM (processCell vert m y (cellStr c) datesRow (c :: tl))
        st₁ = .ok st' := h
    rw [List.foldlM_cons] at h'
    rcases h₂ : processCell vert m y (cellStr c) datesRow (c :: tl) st₁ i with e | st₂
    · rw [h₂] at h'
      exact Except.noConfusion h'
    · rw [h₂] at h'
      exact foldCells_seen_mono l₂ st₂ st' h'
        (processCell_hit hdig hD hact hvert st₁ st₂ h₂)

theorem foldRowsM_seen_mono {vert : List String} {m y : Nat} {datesRow : Row}
    {k : PyDate × String} :
    ∀ (rows : List Row) (st st' : WeekState),
      rows.foldlM (processRow vert m y datesRow) st = .ok st' →
      k ∈ st.2 → k ∈ st'.2 := by
  intro rows st st' h hk
  obtain ⟨el, kl, heq⟩ := foldRowsM_shape rows st st' h
  rw [heq]
  exact List.mem_append_left _ hk

theorem foldRowsM_hit {vert : List String} {m y : Nat} {datesRow : Row}
    {rows : List Row} {st st' : WeekState}
    (h : rows.foldlM (processRow vert m y datesRow) st = .ok st')
    {c : Cell} {tl : Row} (hrmem : (c :: tl) ∈ rows) {i : Nat} {D : PyDate}
    (hname : cellStr c ≠ "")
    (hi1 : 1 ≤ i) (hir : i < (c :: tl).length) (hid : i < datesRow.length)
    (hdig : pyIsDigit (cellText datesRow i) = true)
    (hD : mkDate y m (pyInt (cellText datesRow i)) = .ok D)
    (hact : cellText (c :: tl) i ≠ "") (hvert : cellText (c :: tl) i ∈ vert) :
    (D, cellText (c :: tl) i) ∈ st'.2 := by
  obtain ⟨ρ₁, ρ₂, hsplit⟩ := List.append_of_mem hrmem
  subst hsplit
  rw [List.foldlM_append] at h
  rcases h₁ : ρ₁.foldlM (processRow vert m y datesRow) st with e | st₁
  · rw [h₁] at h
    exact Except.noConfusion h
  · rw [h₁] at h
    have h' : ((c :: tl) :: ρ₂).foldlM (processRow vert m y datesRow) st₁ = .ok st' := h
    rw [List.foldlM_cons] at h'
    rcases h₂ : processRow vert m y datesRow st₁ (c :: tl) with e | st₂
    · rw [h₂] at h'
      exact Except.noConfusion h'
    · rw [h₂] at h'
      exact foldRowsM_seen_mono ρ₂ st₂ st' h'
        (processRow_hit h₂ hname hi1 hir hid hdig hD hact hvert)

theorem seenInv_init (D : PyDate) (a : String) :
    SeenInv D a (([], []) : WeekState) := by
  refine ⟨?_, ?_, ?_⟩
  · intro hk
    cases hk
  · rintro d' a' ⟨e, he, _⟩
    cases he
  · simp

theorem countP_eq_one_of_mem_of_pairwise {α : Type} {p : α → Bool} {l : List α}
    (hp : l.Pairwise fun x y => ¬(p x = true ∧ p y = true)) {e : α} (he : e ∈ l)
    (hpe : p e = true) : l.countP p = 1 := by
  induction l with
  | nil => cases he
  | cons x xs ih =>
    rw [List.pairwise_cons] at hp
    rcases List.mem_cons.mp he with rfl | he'
    · rw [List.countP_cons_of_pos _ _ hpe]
      have h0 : xs.countP p = 0 :=
        List.countP_eq_zero.mpr fun y hy hpy => hp.1 y hy ⟨hpe, hpy⟩
      rw [h0]
    · have hpx : p x = false := by
        rcases hx : p x with _ | _
        · rfl
        · exact absurd ⟨hx, hpe⟩ (hp.1 e he')
      rw [List.countP_cons_of_neg]
      · exact ih hp.2 he'
      · simp [hpx]

/-- Main week-level counting lemma: a cell of a named project row whose
activity is a vertical activity within the pydantic bounds, over a digit day
cell that forms a valid date, yields exactly one event with empty project and
that (date, activity) key in the week's output. -/
theorem processWeek_vertical_count {rows : List Row} {dates : Row} {m y : Nat}
    {evs : List Event} (h : processWeekEventsDf rows dates m y = .ok evs)
    {c : Cell} {tl : Row} (hrmem : (c :: tl) ∈ rows) {i : Nat} {D : PyDate}
    (hname : cellStr c ≠ "")
    (hi1 : 1 ≤ i) (hid : i < dates.length)
    (hdig : pyIsDigit (cellText dates i) = true)
    (hD : mkDate y m (pyInt (cellText dates i)) = .ok D)
    (hact : cellText (c :: tl) i ≠ "")
    (hvert : cellText (c :: tl) i ∈ findVerticalActivities rows dates)
    (hmk : mkEvent "" D (cellText (c :: tl) i) =
      some ⟨"", D, cellText (c :: tl) i⟩) :
    evs.countP (fun e =>
      decide (e.project = "" ∧ e.date = D ∧ e.activity = cellText (c :: tl) i)) = 1 := by
  obtain ⟨st', hf, rfl⟩ := processWeekEventsDf_ok h
  have hinv : SeenInv D (cellText (c :: tl) i) st' :=
    foldRowsM_seenInv hmk rows ([], []) st' hf (seenInv_init D (cellText (c :: tl) i))
  have hkey : (D, cellText (c :: tl) i) ∈ st'.2 :=
    foldRowsM_hit hf hrmem hname hi1 (cellText_ne_imp_lt hact) hid hdig hD hact hvert
  obtain ⟨e, he, hp, hdate, hacts⟩ := hinv.1 hkey
  refine countP_eq_one_of_mem_of_pairwise ?_ he ?_
  · refine hinv.2.2.imp ?_
    intro e₁ e₂ hrel ⟨hp₁, hp₂⟩
    rw [decide_eq_true_eq] at hp₁ hp₂
    exact hrel hp₁.1 hp₂.1 ⟨hp₁.2.1.trans hp₂.2.1.symm, hp₁.2.2.trans hp₂.2.2.symm⟩
  · rw [decide_eq_true_eq]
    exact ⟨hp, hdate, hacts⟩

/-! Scan-level lemmas. -/

theorem scanCalendar_ok_month :
    ∀ (fuel : Nat) {cm : Option Nat} {g : Grid} {evs : List Event},
      scanCalendar fuel cm g = .ok evs → ∀ e ∈ evs, ∃ m : Nat,
        mkDate 2025 m e.date.day = .ok e.date ∧ e.date.year = 2025 ∧
          e.date.month = m ∧ (cm = some m ∨ ∃ r ∈ g, monthOf r = some m) := by
  intro fuel
  induction fuel with
  | zero =>
    intro cm g evs h e he
    have h₂ : (Except.ok [] : Except Unit (List Event)) = .ok evs := h
    injection h₂ with h'
    rw [← h'] at he
    cases he
  | succ n ih =>
    intro cm g evs h e he
    cases g with
    | nil =>
      have h₂ : (Except.ok [] : Except Unit (List Event)) = .ok evs := h
      injection h₂ with h'
      rw [← h'] at he
      cases he
    | cons r rest =>
      rcases hm : monthOf r with _ | m
      · cases cm with
        | none =>
          simp only [scanCalendar, hm] at h
          obtain ⟨m', hmk, hy, hmo, hdisj⟩ := ih h e he
          refine ⟨m', hmk, hy, hmo, Or.inr ?_⟩
          rcases hdisj with hc | ⟨r', hr', hm'⟩
          · exact Option.noConfusion hc
          · exact ⟨r', List.mem_cons_of_mem _ hr', hm'⟩
        | some m =>
          simp only [scanCalendar, hm] at h
          by_cases hh : isDatesHeader r = true
          · rw [if_pos hh] at h
            rcases hw : processWeekEventsDf (rest.takeWhile fun x => !stopRow x)
                r m 2025 with e' | wk
            · rw [hw] at h
              exact Except.noConfusion h
            · simp only [hw] at h
              rcases hs : scanCalendar n (some m)
                  (rest.dropWhile fun x => !stopRow x) with e' | evs₂
              · rw [hs] at h
                exact Except.noConfusion h
              · simp only [hs] at h
                have h₂ : (Except.ok (wk ++ evs₂) : Except Unit (List Event)) = .ok evs := h
                injection h₂ with h'
                rw [← h'] at he
                rcases List.mem_append.mp he with hew | hee
                · obtain ⟨hmk, _⟩ := processWeek_evok hw e hew
                  exact ⟨m, hmk, (mkDate_roundtrip hmk).1, (mkDate_roundtrip hmk).2.1,
                    Or.inl rfl⟩
                · obtain ⟨m', hmk, hy, hmo, hdisj⟩ := ih hs e hee
                  refine ⟨m', hmk, hy, hmo, ?_⟩
                  rcases hdisj with hc | ⟨r', hr', hm'⟩
                  · exact Or.inl hc
                  · exact Or.inr ⟨r',
                      List.mem_cons_of_mem _ ((List.dropWhile_sublist _).subset hr'), hm'⟩
          · rw [if_neg hh] at h
            obtain ⟨m', hmk, hy, hmo, hdisj⟩ := ih h e he
            refine ⟨m', hmk, hy, hmo, ?_⟩
            rcases hdisj with hc | ⟨r', hr', hm'⟩
            · exact Or.inl hc
            · exact Or.inr ⟨r', List.mem_cons_of_mem _ hr', hm'⟩
      · simp only [scanCalendar, hm] at h
        obtain ⟨m', hmk, hy, hmo, hdisj⟩ := ih h e he
        refine ⟨m', hmk, hy, hmo, ?_⟩
        rcases hdisj with hc | ⟨r', hr', hm'⟩
        · injection hc with hc'
          exact Or.inr ⟨r, List.mem_cons_self r rest, by rw [hm, hc']⟩
        · exact Or.inr ⟨r', List.mem_cons_of_mem _ hr', hm'⟩

theorem scanCalendar_no_marker_month {fuel : Nat} {m : Nat} {g : Grid}
    {evs : List Event} (hno : ∀ r ∈ g, monthOf r = none)
    (h : scanCalendar fuel (some m) g = .ok evs) :
    ∀ e ∈ evs, e.date.month = m ∧ e.date.year = 2025 := by
  intro e he
  obtain ⟨m', _, hy, hmo, hdisj⟩ := scanCalendar_ok_month fuel h e he
  rcases hdisj with hc | ⟨r', hr', hm'⟩
  · injection hc with hc'
    rw [hmo, ← hc']
    exact ⟨rfl, hy⟩
  · rw [hno r' hr'] at hm'
    exact Option.noConfusion hm'

/-! Totality lemmas: no exception escapes when every row is non-empty and
every digit day cell fits in a C int. -/

theorem processCell_ok {vert : List String} {m y : Nat} {name : String}
    {datesRow r : Row} {i : Nat} (hy : y < 2 ^ 31) (hm : m < 2 ^ 31)
    (hd : pyIsDigit (cellText datesRow i) = true →
      pyInt (cellText datesRow i) < 2 ^ 31) :
    ∀ st : WeekState, ∃ st', processCell vert m y name datesRow r st i = .ok st' := by
  intro st
  rcases processCell_cases vert m y name datesRow r st i with heq | ⟨hdig, hov, _⟩ |
    ⟨d, hdk, hact, hc⟩
  · exact ⟨st, heq⟩
  · exact absurd hov (mkDate_ne_overflow hy hm (hd hdig))
  · rcases hc with ⟨_, _, ⟨_, heq⟩ | ⟨_, heq⟩⟩ | ⟨_, ⟨_, heq⟩ | ⟨_, heq⟩⟩ <;>
      exact ⟨_, heq⟩

theorem foldCells_ok {vert : List String} {m y : Nat} {name : String}
    {datesRow r : Row} (hy : y < 2 ^ 31) (hm : m < 2 ^ 31)
    (hds : ∀ j, j < datesRow.length → pyIsDigit (cellText datesRow j) = true →
      pyInt (cellText datesRow j) < 2 ^ 31) :
    ∀ (idxs : List Nat), (∀ j ∈ idxs, j < datesRow.length) →
      ∀ st : WeekState, ∃ st',
        idxs.foldlM (processCell vert m y name datesRow r) st = .ok st' := by
  intro idxs
  induction idxs with
  | nil => exact fun _ st => ⟨st, rfl⟩
  | cons j js ih =>
    intro hj st
    obtain ⟨st₁, h₁⟩ :=
      processCell_ok hy hm (hds j (hj j (List.mem_cons_self j js))) st
    obtain ⟨st', h₂⟩ := ih (fun j' hj' => hj j' (List.mem_cons_of_mem _ hj')) st₁
    refine ⟨st', ?_⟩
    rw [List.foldlM_cons, h₁]
    exact h₂

theorem processRow_ok {vert : List String} {m y : Nat} {datesRow : Row}
    {st : WeekState} {r : Row} (hr : r ≠ []) (hy : y < 2 ^ 31) (hm : m < 2 ^ 31)
    (hds : ∀ j, j < datesRow.length → pyIsDigit (cellText datesRow j) = true →
      pyInt (cellText datesRow j) < 2 ^ 31) :
    ∃ st', processRow vert m y datesRow st r = .ok st' := by
  cases r with
  | nil => exact absurd rfl hr
  | cons c tl =>
    simp only [processRow]
    split
    · exact ⟨st, rfl⟩
    · apply foldCells_ok hy hm hds
      intro j hj
      unfold rowIndices at hj
      rw [List.mem_range'_1] at hj
      have hmin := min_le_right (c :: tl).length datesRow.length
      omega

theorem foldRowsM_ok {vert : List String} {m y : Nat} {datesRow : Row}
    (hy : y < 2 ^ 31) (hm : m < 2 ^ 31)
    (hds : ∀ j, j < datesRow.length → pyIsDigit (cellText datesRow j) = true →
      pyInt (cellText datesRow j) < 2 ^ 31) :
    ∀ (rows : List Row) (st : WeekState), (∀ r ∈ rows, r ≠ []) →
      ∃ st', rows.foldlM (processRow vert m y datesRow) st = .ok st' := by
  intro rows
  induction rows with
  | nil => exact fun st _ => ⟨st, rfl⟩
  | cons r rs ih =>
    intro st hall
    obtain ⟨st₁, h₁⟩ :=
      @processRow_ok vert m y datesRow st r (hall r (List.mem_cons_self r rs)) hy hm hds
    obtain ⟨st', h₂⟩ := ih st₁ fun r' hr' => hall r' (List.mem_cons_of_mem _ hr')
    refine ⟨st', ?_⟩
    rw [List.foldlM_cons, h₁]
    exact h₂

theorem processWeekEventsDf_total {rows : List Row} {dates : Row} {m y : Nat}
    (hrows : ∀ r ∈ rows, r ≠ []) (hy : y < 2 ^ 31) (hm : m < 2 ^ 31)
    (hds : ∀ j, j < dates.length → pyIsDigit (cellText dates j) = true →
      pyInt (cellText dates j) < 2 ^ 31) :
    ∃ evs, processWeekEventsDf rows dates m y = .ok evs := by
  obtain ⟨st', hf⟩ := foldRowsM_ok hy hm hds rows ([], []) hrows
  exact ⟨st'.1, by unfold processWeekEventsDf; rw [hf]⟩

theorem lookup_le_twelve :
    ∀ (l : List (String × Nat)), (∀ p ∈ l, p.2 ≤ 12) →
      ∀ (s : String) (m : Nat), l.lookup s = some m → m ≤ 12 := by
  intro l
  induction l with
  | nil =>
    intro _ s m h
    exact Option.noConfusion h
  | cons p ps ih =>
    intro hall s m h
    obtain ⟨k, v⟩ := p
    simp only [List.lookup] at h
    split at h
    · injection h with h'
      rw [← h']
      exact hall (k, v) (List.mem_cons_self _ _)
    · exact ih (fun q hq => hall q (List.mem_cons_of_mem _ hq)) s m h

theorem monthOf_le {r : Row} {m : Nat} (h : monthOf r = some m) : m ≤ 12 := by
  cases r with
  | nil => exact Option.noConfusion h
  | cons c tl =>
    cases c with
    | none => exact Option.noConfusion h
    | some s => exact lookup_le_twelve MONTHS (by decide) s m h

/-- Condition on a grid under which `parse_calendar` cannot raise: every row
is non-empty (no `IndexError` from `project_row[0]`), and every cell whose
stripped text is a digit string has value below `2 ^ 31` (no `OverflowError`
from `datetime.date`). -/
abbrev GridOk (g : Grid) : Prop :=
  ∀ r ∈ g, r ≠ [] ∧ ∀ j, j < r.length →
    pyIsDigit (cellText r j) = true → pyInt (cellText r j) < 2 ^ 31

theorem scanCalendar_total :
    ∀ (fuel : Nat) (cm : Option Nat) (g : Grid),
      (∀ mm, cm = some mm → mm ≤ 12) → GridOk g →
      ∃ evs, scanCalendar fuel cm g = .ok evs := by
  intro fuel
  induction fuel with
  | zero => exact fun cm g _ _ => ⟨[], rfl⟩
  | succ n ih =>
    intro cm g hcm hall
    cases g with
    | nil => exact ⟨[], rfl⟩
    | cons r rest =>
      have hrest : GridOk rest := fun r' hr' => hall r' (List.mem_cons_of_mem _ hr')
      rcases hm : monthOf r with _ | m
      · cases cm with
        | none =>
          simp only [scanCalendar, hm]
          exact ih none rest (fun mm hmm => Option.noConfusion hmm) hrest
        | some m =>
          simp only [scanCalendar, hm]
          by_cases hh : isDatesHeader r = true
          · rw [if_pos hh]
            have hm12 : m ≤ 12 := hcm m rfl
            obtain ⟨wk, hw⟩ :=
              @processWeekEventsDf_total (rest.takeWhile fun x => !stopRow x) r m 2025
                (fun r' hr' => (hrest r' ((List.takeWhile_sublist _).subset hr')).1)
                (by decide) (lt_of_le_of_lt hm12 (by decide))
                (hall r (List.mem_cons_self r rest)).2
            simp only [hw]
            obtain ⟨evs₂, hs⟩ := ih (some m) (rest.dropWhile fun x => !stopRow x)
              (fun mm hmm => by injection hmm with h'; rw [← h']; exact hm12)
              (fun r' hr' => hrest r' ((List.dropWhile_sublist _).subset hr'))
            simp only [hs]
            exact ⟨wk ++ evs₂, rfl⟩
          · rw [if_neg hh]
            exact ih (some m) rest hcm hrest
      · simp only [scanCalendar, hm]
        exact ih (some m) rest
          (fun mm hmm => by injection hmm with h'; rw [← h']; exact monthOf_le hm)
          hrest

/-- The fuel bound is inessential: any fuel at least the number of rows gives
the same result, so `parseCalendar` (which passes `g.length`) computes the
source's loop, which consumes at least one row per iteration. -/
theorem scanCalendar_fuel_irrel :
    ∀ (fuel₁ fuel₂ : Nat) (cm : Option Nat) (g : Grid),
      g.length ≤ fuel₁ → g.length ≤ fuel₂ →
      scanCalendar fuel₁ cm g = scanCalendar fuel₂ cm g := by
  intro fuel₁
  induction fuel₁ with
  | zero =>
    intro fuel₂ cm g h₁ h₂
    have hg : g = [] := List.length_eq_zero.mp (Nat.le_zero.mp h₁)
    subst hg
    cases fuel₂ with
    | zero => rfl
    | succ k => rfl
  | succ n ih =>
    intro fuel₂ cm g h₁ h₂
    cases g with
    | nil =>
      cases fuel₂ with
      | zero => rfl
      | succ k => rfl
    | cons r rest =>
      cases fuel₂ with
      | zero => simp at h₂
      | succ k =>
        have hlen : rest.length ≤ n := by simpa using h₁
        have hlen₂ : rest.length ≤ k := by simpa using h₂
        rcases hm : monthOf r with _ | m
        · cases cm with
          | none =>
            simp only [scanCalendar, hm]
            exact ih k none rest hlen hlen₂
          | some m =>
            simp only [scanCalendar, hm]
            by_cases hh : isDatesHeader r = true
            · rw [if_pos hh, if_pos hh]
              rcases hw : processWeekEventsDf (rest.takeWhile fun x => !stopRow x)
                  r m 2025 with e' | wk
              · simp only [hw]
              · simp only [hw]
                have hd₁ : (rest.dropWhile fun x => !stopRow x).length ≤ n :=
                  le_trans (List.dropWhile_sublist _).length_le hlen
                have hd₂ : (rest.dropWhile fun x => !stopRow x).length ≤ k :=
                  le_trans (List.dropWhile_sublist _).length_le hlen₂
                rw [ih k (some m) (rest.dropWhile fun x => !stopRow x) hd₁ hd₂]
            · rw [if_neg hh, if_neg hh]
              exact ih k (some m) rest hlen hlen₂
        · simp only [scanCalendar, hm]
          exact ih k (some m) rest hlen hlen₂

theorem parseCalendar_of_scan {g : Grid} {evs : List Event}
    (h : scanCalendar g.length none g = .ok evs) :
    parseCalendar g = .ok (sortByDate evs) := by
  unfold parseCalendar
  rw [h]
  rfl

theorem parseCalendar_ok_destruct {g : Grid} {evs : List Event}
    (h : parseCalendar g = .ok evs) :
    ∃ evs₀, scanCalendar g.length none g = .ok evs₀ ∧ evs = sortByDate evs₀ := by
  unfold parseCalendar at h
  rcases hs : scanCalendar g.length none g with e | evs₀
  · rw [hs] at h
    exact Except.noConfusion h
  · rw [hs] at h
    have h₂ : (Except.ok (sortByDate evs₀) : Except Unit (List Event)) = .ok evs := h
    injection h₂ with h'
    exact ⟨evs₀, rfl, h'.symm⟩

/-- Shared counting lemma for the amended C4 and C10: in a week block, a
column (index within `range(1, min(len(dates_row), 8))`) whose non-empty
trimmed values number at least 2 and are all the same text `a` of at most 500
characters (the `Event` model's `activity` bound, below which pydantic cannot
drop the event), together with a named project row holding `a` in that column
over a digit day cell that forms a valid date `D`, yields exactly one event
with empty project and key `(D, a)` in the week's output. -/
theorem week_all_equal_column_count {rows : List Row} {dates : Row} {m y : Nat}
    {evs : List Event} {c : Cell} {tl : Row} {i : Nat} {D : PyDate} {a : String}
    (h : processWeekEventsDf rows dates m y = .ok evs)
    (hrmem : (c :: tl) ∈ rows) (hname : cellStr c ≠ "")
    (hi1 : 1 ≤ i) (hi8 : i < min dates.length 8)
    (hcol : 1 < (columnNonEmpty rows i).length ∧ ∀ b ∈ columnNonEmpty rows i, b = a)
    (hacell : cellText (c :: tl) i = a) (hlen : a.length ≤ 500)
    (hdig : pyIsDigit (cellText dates i) = true)
    (hD : mkDate y m (pyInt (cellText dates i)) = .ok D) :
    evs.countP (fun e => decide (e.project = "" ∧ e.date = D ∧ e.activity = a)) = 1 := by
  have hvert : a ∈ findVerticalActivities rows dates :=
    mem_findVerticalActivities_iff.mpr ⟨i, hi1, hi8, columnVertical_eq_some_iff.mpr hcol⟩
  have hane : a ≠ "" := by
    rcases hne : columnNonEmpty rows i with _ | ⟨b, bs⟩
    · rw [hne] at hcol
      exact absurd hcol.1 (by simp)
    · have hb : b ∈ columnNonEmpty rows i := by
        rw [hne]
        exact List.mem_cons_self b bs
      have hbf : b ∈ (columnActivities rows i).filter (fun x => x != "") := hb
      have hbne := List.of_mem_filter hbf
      rw [← hcol.2 b hb]
      simpa [bne_iff_ne] using hbne
  have hmk : mkEvent "" D a = some ⟨"", D, a⟩ := mkEvent_empty_project hane hlen
  have hid : i < dates.length := lt_of_lt_of_le hi8 (min_le_left _ _)
  have hcount := processWeek_vertical_count h hrmem hname hi1 hid hdig hD
    (by rw [hacell]; exact hane) (by rw [hacell]; exact hvert)
    (by rw [hacell]; exact hmk)
  rw [hacell] at hcount
  exact hcount

/-! Claim theorems. -/

/-- C1 (counterexample): on the spec's own grid the day-2 cell, whose column
has exactly one non-empty contributor, is NOT emitted as
`{Проект А, 2025-07-02, Сбор}`: because «Сбор» is vertical from the day-1
column, the code emits it with empty project. -/
theorem claim_C1_counterexample :
    parseCalendar gridC1 =
        .ok [⟨"", ⟨2025, 7, 1⟩, "Сбор"⟩, ⟨"", ⟨2025, 7, 2⟩, "Сбор"⟩] ∧
      Event.mk "Проект А" ⟨2025, 7, 2⟩ "Сбор" ∉
        [Event.mk "" ⟨2025, 7, 1⟩ "Сбор", Event.mk "" ⟨2025, 7, 2⟩ "Сбор"] := by
  decide

/-- C1 (amended): verticality is keyed per activity text for the whole week
block, not per column: every event a week emits has empty project exactly
when its activity is in the week's vertical set, so a cell of a
single-contributor column, when it yields an event at all, yields it with
empty project whenever its text is vertical from another column.  On the
spec's grid, the day-2 cell therefore yields `{"" , 2025-07-02, Сбор}`
(«Сбор» being vertical from day 1). -/
theorem claim_C1_amended :
    (∀ (rows : List Row) (dates : Row) (m y : Nat) (evs : List Event),
        processWeekEventsDf rows dates m y = .ok evs →
        ∀ e ∈ evs, (e.project = "" ↔ e.activity ∈ findVerticalActivities rows dates)) ∧
      parseCalendar gridC1 =
        .ok [⟨"", ⟨2025, 7, 1⟩, "Сбор"⟩, ⟨"", ⟨2025, 7, 2⟩, "Сбор"⟩] ∧
      "Сбор" ∈ findVerticalActivities projRowsC1 datesC1 := by
  refine ⟨?_, by decide, by decide⟩
  intro rows dates m y evs h e he
  obtain ⟨_, hdich⟩ := processWeek_evok h e he
  rcases hdich with ⟨hp, hv⟩ | ⟨hp, hv⟩
  · exact ⟨fun _ => hv, fun _ => hp⟩
  · exact ⟨fun hpe => absurd hpe hp, fun hve => absurd hve hv⟩

/-- C1 (witness): the amended dichotomy instantiated on the week block of the
spec's own grid at its day-2 event. -/
theorem claim_C1_witness :
    (Event.mk "" ⟨2025, 7, 2⟩ "Сбор").project = "" ↔
      (Event.mk "" ⟨2025, 7, 2⟩ "Сбор").activity ∈
        findVerticalActivities projRowsC1 datesC1 :=
  claim_C1_amended.1 projRowsC1 datesC1 7 2025
    [Event.mk "" ⟨2025, 7, 1⟩ "Сбор", Event.mk "" ⟨2025, 7, 2⟩ "Сбор"]
    (by decide) (Event.mk "" ⟨2025, 7, 2⟩ "Сбор") (by decide)

/-- C2 (counterexample): column 8 of `datesC2` holds the integer day string
"8" and two project rows with the identical non-empty text "X", yet "X" is not
classified vertical, because `_find_vertical_activities` stops at
`min(len(dates_row), 8)`. -/
theorem claim_C2_counterexample :
    (1 < (columnNonEmpty rowsC2 8).length ∧ ∀ b ∈ columnNonEmpty rowsC2 8, b = "X") ∧
      pyIsDigit (cellText datesC2 8) = true ∧
      "X" ∉ findVerticalActivities rowsC2 datesC2 := by
  decide

/-- C2 (amended): the vertical-activity computation considers exactly the
column indices `1 ≤ i < min(len(dates_row), 8)` — at most seven day columns,
and regardless of whether the column holds an integer day string: a text is
vertical iff some such column has at least 2 non-empty trimmed values, all
equal to it. -/
theorem claim_C2_amended {rows : List Row} {dates : Row} {a : String} :
    a ∈ findVerticalActivities rows dates ↔
      ∃ i, 1 ≤ i ∧ i < min dates.length 8 ∧
        1 < (columnNonEmpty rows i).length ∧ ∀ b ∈ columnNonEmpty rows i, b = a := by
  rw [mem_findVerticalActivities_iff]
  constructor
  · rintro ⟨i, h1, h2, hv⟩
    obtain ⟨hl, hall⟩ := columnVertical_eq_some_iff.mp hv
    exact ⟨i, h1, h2, hl, hall⟩
  · rintro ⟨i, h1, h2, hl, hall⟩
    exact ⟨i, h1, h2, columnVertical_eq_some_iff.mpr ⟨hl, hall⟩⟩

/-- C3 (counterexample): in `gridC3` the day-2 column has two differing
non-empty texts ("X" and "Y"), yet the code still emits a `project=""` event
for that column's "X" cell, because "X" is vertical from the day-1 column. -/
theorem claim_C3_counterexample :
    parseCalendar gridC3 =
        .ok [⟨"", ⟨2025, 7, 1⟩, "X"⟩, ⟨"", ⟨2025, 7, 2⟩, "X"⟩,
          ⟨"Проект Б", ⟨2025, 7, 2⟩, "Y"⟩] ∧
      cellText [some "Проект А", some "X", some "X"] 2 = "X" ∧
      cellText [some "Проект Б", some "X", some "Y"] 2 = "Y" ∧
      Event.mk "" ⟨2025, 7, 2⟩ "X" ∈
        [Event.mk "" ⟨2025, 7, 1⟩ "X", Event.mk "" ⟨2025, 7, 2⟩ "X",
         Event.mk "Проект Б" ⟨2025, 7, 2⟩ "Y"] := by
  decide

/-- C3 (amended): a column with two differing non-empty texts contributes no
vertical activity itself, and in the week's output an event has empty project
exactly when its activity text is vertical (possibly from another column);
only cells whose text is vertical nowhere in the week are attributed to their
own project. -/
theorem claim_C3_amended {rows : List Row} {dates : Row} {m y : Nat}
    {evs : List Event} {i : Nat} {b₁ b₂ : String}
    (h : processWeekEventsDf rows dates m y = .ok evs)
    (h₁ : b₁ ∈ columnNonEmpty rows i) (h₂ : b₂ ∈ columnNonEmpty rows i)
    (hne : b₁ ≠ b₂) :
    columnVertical rows i = none ∧
      ∀ e ∈ evs, (e.project = "" ↔ e.activity ∈ findVerticalActivities rows dates) := by
  refine ⟨columnVertical_eq_none_of_differing h₁ h₂ hne, ?_⟩
  intro e he
  obtain ⟨_, hdich⟩ := processWeek_evok h e he
  rcases hdich with ⟨hp, hv⟩ | ⟨hp, hv⟩
  · exact ⟨fun _ => hv, fun _ => hp⟩
  · exact ⟨fun hpe => absurd hpe hp, fun hve => absurd hve hv⟩

/-- C3 (witness): the amended statement instantiated on the week block of
`gridC3` at column 2 with texts "X" and "Y". -/
theorem claim_C3_witness :
    columnVertical projRowsC3 2 = none ∧
      ((Event.mk "" ⟨2025, 7, 2⟩ "X").project = "" ↔
        (Event.mk "" ⟨2025, 7, 2⟩ "X").activity ∈
          findVerticalActivities projRowsC3 datesC3) := by
  have h := @claim_C3_amended projRowsC3 datesC3 7 2025
    [Event.mk "" ⟨2025, 7, 1⟩ "X", Event.mk "" ⟨2025, 7, 2⟩ "X",
     Event.mk "Проект Б" ⟨2025, 7, 2⟩ "Y"] 2 "X" "Y"
    (by decide) (by decide) (by decide) (by decide)
  exact ⟨h.1, h.2 (Event.mk "" ⟨2025, 7, 2⟩ "X") (by decide)⟩

/-- C4 (counterexample): in `gridC4` the day-1 column has two project rows
with the identical non-empty text "X", yet (a third row holding "Y") no
`project=""` event is produced for "X" at all, and two attributed events carry
that text on that date. -/
theorem claim_C4_counterexample :
    parseCalendar gridC4 =
        .ok [⟨"A", ⟨2025, 7, 1⟩, "X"⟩, ⟨"B", ⟨2025, 7, 1⟩, "X"⟩,
          ⟨"C", ⟨2025, 7, 1⟩, "Y"⟩] ∧
      cellText [some "A", some "X"] 1 = "X" ∧
      cellText [some "B", some "X"] 1 = "X" ∧
      ([Event.mk "A" ⟨2025, 7, 1⟩ "X", Event.mk "B" ⟨2025, 7, 1⟩ "X",
          Event.mk "C" ⟨2025, 7, 1⟩ "Y"].countP
        (fun e => decide (e.project = "" ∧ e.activity = "X")) = 0) ∧
      ([Event.mk "A" ⟨2025, 7, 1⟩ "X", Event.mk "B" ⟨2025, 7, 1⟩ "X",
          Event.mk "C" ⟨2025, 7, 1⟩ "Y"].countP
        (fun e => decide (e.activity = "X")) = 2) := by
  decide

/-- C4 (amended): when additionally ALL non-empty trimmed values of the
column are that same text, the text is at most 500 characters (the `Event`
model's `activity` max_length, beyond which pydantic's `ValidationError` is
swallowed and the event dropped after its key was recorded), and the column
index is below `min(len(dates_row), 8)`, a named row's cell over a digit day
cell forming a valid date yields exactly one `project=""` event with that
(date, activity) key in the week's output (the first occurrence wins, later
occurrences are suppressed). -/
theorem claim_C4_amended {rows : List Row} {dates : Row} {m y : Nat}
    {evs : List Event} {c : Cell} {tl : Row} {i : Nat} {D : PyDate} {a : String}
    (h : processWeekEventsDf rows dates m y = .ok evs)
    (hrmem : (c :: tl) ∈ rows) (hname : cellStr c ≠ "")
    (hi1 : 1 ≤ i) (hi8 : i < min dates.length 8)
    (hcol : 1 < (columnNonEmpty rows i).length ∧ ∀ b ∈ columnNonEmpty rows i, b = a)
    (hacell : cellText (c :: tl) i = a) (hlen : a.length ≤ 500)
    (hdig : pyIsDigit (cellText dates i) = true)
    (hD : mkDate y m (pyInt (cellText dates i)) = .ok D) :
    evs.countP (fun e => decide (e.project = "" ∧ e.date = D ∧ e.activity = a)) = 1 :=
  week_all_equal_column_count h hrmem hname hi1 hi8 hcol hacell hlen hdig hD

/-- C4 (witness): the amended statement on the week block of `wrowsC4`. -/
theorem claim_C4_witness :
    [Event.mk "" ⟨2025, 7, 1⟩ "X"].countP
      (fun e => decide (e.project = "" ∧ e.date = (⟨2025, 7, 1⟩ : PyDate) ∧
        e.activity = "X")) = 1 :=
  @claim_C4_amended wrowsC4 datesC4 7 2025 [Event.mk "" ⟨2025, 7, 1⟩ "X"]
    (some "A") [some "X"] 1 ⟨2025, 7, 1⟩ "X"
    (by decide) (by decide) (by decide) (by decide) (by decide) (by decide)
    (by decide) (by decide) (by decide) (by decide)

/-- C5: the returned list is the stable ascending sort by date of the events
produced by the scan: `parse_calendar` returns exactly `sortByDate` of the
scanned events, the result is pairwise non-decreasing by date, and for every
date the subsequence of events carrying it is unchanged (stability). -/
theorem claim_C5_sorted_stable {g : Grid} {evs₀ : List Event}
    (h : scanCalendar g.length none g = .ok evs₀) :
    parseCalendar g = .ok (sortByDate evs₀) ∧
      (sortByDate evs₀).Pairwise eventLe ∧
      ∀ d : PyDate, (sortByDate evs₀).filter (fun e => decide (e.date = d)) =
        evs₀.filter (fun e => decide (e.date = d)) :=
  ⟨parseCalendar_of_scan h, sortByDate_pairwise evs₀,
    fun d => filter_sortByDate d evs₀⟩

/-- C5 (witness): instantiated on `gridC5`, whose scan produces the dates out
of order with a tie on 2025-07-02. -/
theorem claim_C5_witness :
    parseCalendar gridC5 =
        .ok (sortByDate [Event.mk "П1" ⟨2025, 7, 2⟩ "A",
          Event.mk "П1" ⟨2025, 7, 1⟩ "B", Event.mk "П2" ⟨2025, 7, 2⟩ "C"]) ∧
      (sortByDate [Event.mk "П1" ⟨2025, 7, 2⟩ "A", Event.mk "П1" ⟨2025, 7, 1⟩ "B",
        Event.mk "П2" ⟨2025, 7, 2⟩ "C"]).Pairwise eventLe ∧
      (sortByDate [Event.mk "П1" ⟨2025, 7, 2⟩ "A", Event.mk "П1" ⟨2025, 7, 1⟩ "B",
          Event.mk "П2" ⟨2025, 7, 2⟩ "C"]).filter
          (fun e => decide (e.date = (⟨2025, 7, 2⟩ : PyDate))) =
        [Event.mk "П1" ⟨2025, 7, 2⟩ "A", Event.mk "П1" ⟨2025, 7, 1⟩ "B",
          Event.mk "П2" ⟨2025, 7, 2⟩ "C"].filter
          (fun e => decide (e.date = (⟨2025, 7, 2⟩ : PyDate))) := by
  have h := @claim_C5_sorted_stable gridC5
    [Event.mk "П1" ⟨2025, 7, 2⟩ "A", Event.mk "П1" ⟨2025, 7, 1⟩ "B",
     Event.mk "П2" ⟨2025, 7, 2⟩ "C"] (by decide)
  exact ⟨h.1, h.2.1, h.2.2 ⟨2025, 7, 2⟩⟩

/-- C6 (counterexample): an empty row inside a week block makes the parser hit
`project_row[0]` and raise `IndexError`: the parse does not return a list. -/
theorem claim_C6_counterexample :
    parseCalendar [[some "ИЮЛЬ"], [some "", some "1"], []] = .error () := by
  decide

/-- C6 (amended): for every grid all of whose rows are non-empty (jagged rows
of any positive length) and whose digit day cells all have values below
`2 ^ 31`, `parse_calendar` returns a list without raising; malformed day
cells ("пн", "32", "-") are dropped per-cell without aborting the row, as on
`gridC6`.  Both boundaries are genuine: an empty row raises `IndexError`
(the counterexample), and a digit day cell of at least `2 ^ 31` raises an
uncaught `OverflowError` from `datetime.date`, shown here on
"9999999999". -/
theorem claim_C6_amended :
    (∀ g : Grid, GridOk g → ∃ evs, parseCalendar g = .ok evs) ∧
      parseCalendar gridC6 = .ok [⟨"П", ⟨2025, 7, 1⟩, "b"⟩] ∧
      parseCalendar [[some "ИЮЛЬ"], [some "", some "9999999999"],
        [some "П", some "x"]] = .error () := by
  refine ⟨?_, by decide, by decide⟩
  intro g h
  obtain ⟨evs, hs⟩ :=
    scanCalendar_total g.length none g (fun mm hmm => Option.noConfusion hmm) h
  exact ⟨sortByDate evs, parseCalendar_of_scan hs⟩

/-- C6 (witness): totality applied to the malformed-cell grid `gridC6`. -/
theorem claim_C6_witness : ∃ evs, parseCalendar gridC6 = .ok evs :=
  claim_C6_amended.1 gridC6 (by decide)

/-- C7: a month-marker row (first cell an exact member of the `MONTHS` table)
resets the current month regardless of the previous month state, and every
event produced from the rows after it — none of which is another marker —
carries that month: with the July context still active, an АВГУСТ marker makes
all following events use month 8, not 7. -/
theorem claim_C7_month_no_leak {cm : Option Nat} {r : Row} {rest : List Row}
    {m : Nat} {evs : List Event} {fuel : Nat}
    (hm : monthOf r = some m) (hno : ∀ r' ∈ rest, monthOf r' = none)
    (h : scanCalendar (fuel + 1) cm (r :: rest) = .ok evs) :
    ∀ e ∈ evs, e.date.month = m := by
  simp only [scanCalendar, hm] at h
  intro e he
  exact (scanCalendar_no_marker_month hno h e he).1

/-- C7 (witness): an АВГУСТ block entered with `current_month = 7` (July)
produces events carrying month 8. -/
theorem claim_C7_witness : (Event.mk "П" ⟨2025, 8, 1⟩ "Х").date.month = 8 :=
  @claim_C7_month_no_leak (some 7) [some "АВГУСТ"]
    [[some "", some "1"], [some "П", some "Х"]] 8
    [Event.mk "П" ⟨2025, 8, 1⟩ "Х"] 2
    (by decide) (by decide) (by decide) (Event.mk "П" ⟨2025, 8, 1⟩ "Х") (by decide)

/-- C8: `filter_events` is an inclusive range filter on `date`: with both
bounds equal to `d` it keeps exactly the events dated `d` in order; with only
a start (resp. end) bound it keeps the events with `date ≥ start`
(resp. `date ≤ end`); with no bounds it returns the list unchanged. -/
theorem claim_C8_filter :
    (∀ (evs : List Event) (d : PyDate),
        filterEvents evs (some d) (some d) =
          evs.filter (fun e => decide (e.date = d))) ∧
      (∀ (evs : List Event) (d : PyDate),
        filterEvents evs (some d) none =
          evs.filter (fun e => PyDate.leB d e.date)) ∧
      (∀ (evs : List Event) (d : PyDate),
        filterEvents evs none (some d) =
          evs.filter (fun e => PyDate.leB e.date d)) ∧
      (∀ evs : List Event, filterEvents evs none none = evs) := by
  refine ⟨?_, fun evs d => rfl, fun evs d => rfl, fun evs => rfl⟩
  intro evs d
  apply List.filter_congr
  intro e _
  by_cases hd : e.date = d
  · rw [hd]
    simp [PyDate.leB_refl]
  · have hboth : ¬(PyDate.leB d e.date = true ∧ PyDate.leB e.date d = true) := by
      rintro ⟨h1, h2⟩
      exact hd (PyDate.leB_antisymm h2 h1)
    rcases h1 : PyDate.leB d e.date with _ | _
    · simp [h1, hd]
    · rcases h2 : PyDate.leB e.date d with _ | _
      · simp [h1, h2, hd]
      · exact absurd ⟨h1, h2⟩ hboth

/-- C9: every event of a successful parse carries a date whose year is the
constant 2025 and which is a valid calendar date: rebuilding it with `mkDate`
from its own (month, day) succeeds and returns it unchanged. -/
theorem claim_C9_valid_dates {g : Grid} {evs : List Event}
    (h : parseCalendar g = .ok evs) :
    ∀ e ∈ evs, e.date.year = 2025 ∧
      mkDate 2025 e.date.month e.date.day = .ok e.date := by
  obtain ⟨evs₀, hs, rfl⟩ := parseCalendar_ok_destruct h
  intro e he
  have he₀ : e ∈ evs₀ := mem_sortByDate.mp he
  obtain ⟨m, hmk, hy, hmo, _⟩ := scanCalendar_ok_month g.length hs e he₀
  refine ⟨hy, ?_⟩
  rw [hmo]
  exact hmk

/-- C9 (witness): the validity invariant on the single event of `gridC6`. -/
theorem claim_C9_witness :
    (Event.mk "П" ⟨2025, 7, 1⟩ "b").date.year = 2025 ∧
      mkDate 2025 (Event.mk "П" ⟨2025, 7, 1⟩ "b").date.month
          (Event.mk "П" ⟨2025, 7, 1⟩ "b").date.day =
        .ok (Event.mk "П" ⟨2025, 7, 1⟩ "b").date :=
  @claim_C9_valid_dates gridC6 [Event.mk "П" ⟨2025, 7, 1⟩ "b"]
    (by decide) (Event.mk "П" ⟨2025, 7, 1⟩ "b") (by decide)

/-- C10 (counterexample): in `gridC10` a named row and an empty-column-0 row
share the non-empty text "X" in the day-1 column (two non-empty cells), yet
"X" is not classified vertical and the named cell keeps its project name,
because a third row holds the different text "Y" in that column. -/
theorem claim_C10_counterexample :
    parseCalendar gridC10 =
        .ok [⟨"A", ⟨2025, 7, 1⟩, "X"⟩, ⟨"B", ⟨2025, 7, 1⟩, "Y"⟩] ∧
      cellText [some "A", some "X"] 1 = "X" ∧
      cellText [some "", some "X"] 1 = "X" ∧ cellStr (some "") = "" ∧
      "X" ∉ findVerticalActivities wrowsC10 datesC10 ∧
      Event.mk "" ⟨2025, 7, 1⟩ "X" ∉
        [Event.mk "A" ⟨2025, 7, 1⟩ "X", Event.mk "B" ⟨2025, 7, 1⟩ "Y"] := by
  decide

/-- C10 (amended): a week-block row whose trimmed column 0 is empty never
yields any event itself, yet its cells still count toward vertical-activity
detection: when the named row's and the empty-column-0 row's shared text is
the only non-empty value of the column, is at most 500 characters (the
`Event` model's `activity` max_length, beyond which pydantic's
`ValidationError` is swallowed and the event dropped after its key was
recorded), and the column index is below `min(len(dates_row), 8)`, it is
classified vertical and the named row's cell is emitted exactly once with
empty project instead of its project name. -/
theorem claim_C10_amended {rows : List Row} {dates : Row} {m y : Nat}
    {evs : List Event} {c : Cell} {tl : Row} {c₀ : Cell} {tl₀ : Row} {i : Nat}
    {D : PyDate} {a : String}
    (h : processWeekEventsDf rows dates m y = .ok evs)
    (hrmem : (c :: tl) ∈ rows) (hname : cellStr c ≠ "")
    (_hr0mem : (c₀ :: tl₀) ∈ rows) (hname0 : cellStr c₀ = "")
    (hi1 : 1 ≤ i) (hi8 : i < min dates.length 8)
    (hcol : 1 < (columnNonEmpty rows i).length ∧ ∀ b ∈ columnNonEmpty rows i, b = a)
    (hacell : cellText (c :: tl) i = a) (hlen : a.length ≤ 500)
    (hdig : pyIsDigit (cellText dates i) = true)
    (hD : mkDate y m (pyInt (cellText dates i)) = .ok D) :
    (∀ (vert : List String) (st : WeekState),
        processRow vert m y dates st (c₀ :: tl₀) = .ok st) ∧
      a ∈ findVerticalActivities rows dates ∧
      evs.countP (fun e => decide (e.project = "" ∧ e.date = D ∧ e.activity = a)) = 1 := by
  refine ⟨?_,
    mem_findVerticalActivities_iff.mpr ⟨i, hi1, hi8, columnVertical_eq_some_iff.mpr hcol⟩,
    week_all_equal_column_count h hrmem hname hi1 hi8 hcol hacell hlen hdig hD⟩
  intro vert st
  simp only [processRow]
  rw [if_pos hname0]

/-- C10 (witness): the amended statement on the week rows `wrowsC10W` (a named
row and an empty-column-0 row sharing "X" on day 1). -/
theorem claim_C10_witness :
    "X" ∈ findVerticalActivities wrowsC10W datesC10 ∧
      [Event.mk "" ⟨2025, 7, 1⟩ "X"].countP
        (fun e => decide (e.project = "" ∧ e.date = (⟨2025, 7, 1⟩ : PyDate) ∧
          e.activity = "X")) = 1 := by
  have h := @claim_C10_amended wrowsC10W datesC10 7 2025
    [Event.mk "" ⟨2025, 7, 1⟩ "X"] (some "A") [some "X"] (some "") [some "X"]
    1 ⟨2025, 7, 1⟩ "X"
    (by decide) (by decide) (by decide) (by decide) (by decide) (by decide)
    (by decide) (by decide) (by decide) (by decide) (by decide) (by decide)
  exact ⟨h.2.1, h.2.2⟩
